import Mathlib

/-!
The goose migration engine: locking, dialect selection and the migration runner.

A shallow embedding of `dialect.go`, `up.go`, `down.go` and `redo.go`.

* Go `error` values are the type `Err`; `nil` is `none : Option Err`.
* The database is an abstract state `DB`.  What the runner does to it is
  recorded as a list of `Event`s (the calls issued on `db` and `tx`), and the
  answers of the database and of the file system are the fields of `Env`.
* The endless `for` loops of `UpTo` and `DownTo` take a fuel argument; `none`
  means that the loop is still running when the fuel is used up.
-/

namespace Goose

/-! ## Errors -/

/-- An argument handed to `fmt.Errorf`. -/
inductive Arg where
  | str (s : String)
  | int (n : Int)
  deriving DecidableEq, Repr

/-- Go `error` values.  `ErrNoNextVersion` and `ErrNoCurrentVersion` are the
package's sentinel values, `errorf` is a value built by `fmt.Errorf` (format
and arguments), `other` is any error returned by a collaborator. -/
inductive Err where
  | ErrNoNextVersion
  | ErrNoCurrentVersion
  | errorf (format : String) (args : List Arg)
  | other (msg : String)
  deriving DecidableEq, Repr

/-- The two loop-termination sentinels. -/
def Err.isSentinel : Err → Bool
  | .ErrNoNextVersion => true
  | .ErrNoCurrentVersion => true
  | _ => false

/-! ## dialect.go -/

/-- The three implementations of the `SQLDialect` interface. `TiDBDialect`
has one field, `isLocked`. -/
inductive SQLDialect where
  | PostgresDialect
  | MySQLDialect
  | TiDBDialect (isLocked : Bool)
  deriving DecidableEq, Repr

/-- Line 21 of dialect.go: `var dialect SQLDialect = &PostgresDialect{}`. -/
def defaultDialect : SQLDialect := .PostgresDialect

/-- `GetDialect`: the value of the package variable `dialect`. -/
def GetDialect (dialect : SQLDialect) : SQLDialect := dialect

/-- A call on the database handle or on the transaction. -/
inductive Event where
  /-- `db.Begin()` -/
  | begin
  /-- `GetDialect().lock(tx)` -/
  | lock
  /-- `GetDialect().unlock(tx)` -/
  | unlock
  /-- `tx.Commit()` -/
  | commit
  /-- `tx.Rollback()`: part of `sql.Tx`, called by no function of the package -/
  | rollback
  /-- `GetDBVersion(db)` -/
  | getDBVersion
  /-- `m.Up(db)` for the unit with this version and source, and what it returned -/
  | up (version : Int) (source : String) (err : Option Err)
  /-- `m.Down(db)` for the unit with this version and source, and what it returned -/
  | down (version : Int) (source : String) (err : Option Err)
  deriving DecidableEq, Repr

/-- What `SetDialect` leaves behind: the returned error, the package variable
`dialect`, and the database calls it issued. -/
structure SetDialectRun where
  err : Option Err
  dialect : SQLDialect
  calls : List Event
  deriving DecidableEq, Repr

/-- `SetDialect(d)` run with the package variable holding `dialect`. -/
def SetDialect (d : String) (dialect : SQLDialect) : SetDialectRun :=
  if d = "postgres" then ⟨none, .PostgresDialect, []⟩
  else if d = "mysql" then ⟨none, .MySQLDialect, []⟩
  else if d = "tidb" then ⟨none, .TiDBDialect false, []⟩
  else ⟨some (.errorf "%q: unknown dialect" [.str d]), dialect, []⟩

/-- The answers of the database server to the locking statements, and the
result of `generateAdvisoryLockId(TableName())` (not in the sources: a
parameter). A failing statement is given by the text of its error. -/
structure LockServer where
  /-- `generateAdvisoryLockId(TableName())` -/
  aid : Except Err Int
  /-- `SELECT pg_advisory_lock($1)` -/
  pgAdvisoryLock : Option String
  /-- `SELECT pg_advisory_unlock($1)` -/
  pgAdvisoryUnlock : Option String
  /-- the i-th `SELECT GET_LOCK(?, 30)` of a lock call, counted from 0 -/
  getLock : Nat → Except String Bool
  /-- `SELECT RELEASE_LOCK(?)` -/
  releaseLock : Option String

/-- What a `lock` call did: the returned error and the number of locking
statements it sent. -/
structure LockRun where
  err : Option Err
  attempts : Nat
  deriving DecidableEq, Repr

/-- `PostgresDialect.lock`. -/
def PostgresDialect.lock (s : LockServer) : LockRun :=
  match s.aid with
  | .error e => ⟨some e, 0⟩
  | .ok _ =>
    match s.pgAdvisoryLock with
    | some msg => ⟨some (.errorf "try lock failed, err: %s" [.str msg]), 1⟩
    | none => ⟨none, 1⟩

/-- `PostgresDialect.unlock`. -/
def PostgresDialect.unlock (s : LockServer) : Option Err :=
  match s.aid with
  | .error e => some e
  | .ok _ =>
    match s.pgAdvisoryUnlock with
    | some msg => some (.errorf "try unlock failed, err: %s" [.str msg])
    | none => none

/-- The `for` loop of `MySQLDialect.lock`, entered with `retryCount`; the
constant `maxRetry` is not in the sources and is a parameter. Every pass sends
one `GET_LOCK`, so the pass with `retryCount = i` receives `getLock i`. -/
def MySQLDialect.lockLoop (maxRetry : Nat) (getLock : Nat → Except String Bool)
    (retryCount : Nat) : LockRun :=
  if retryCount > maxRetry then
    ⟨some (.errorf "fail get lock after %d retries" [.int maxRetry]), retryCount⟩
  else
    match getLock retryCount with
    | .error msg => ⟨some (.errorf "try lock failed, err: %s" [.str msg]), retryCount + 1⟩
    | .ok true => ⟨none, retryCount + 1⟩
    | .ok false => MySQLDialect.lockLoop maxRetry getLock (retryCount + 1)
termination_by maxRetry + 1 - retryCount
decreasing_by omega

/-- `MySQLDialect.lock`. -/
def MySQLDialect.lock (maxRetry : Nat) (s : LockServer) : LockRun :=
  match s.aid with
  | .error e => ⟨some e, 0⟩
  | .ok _ => MySQLDialect.lockLoop maxRetry s.getLock 0

/-- `MySQLDialect.unlock`. -/
def MySQLDialect.unlock (s : LockServer) : Option Err :=
  match s.aid with
  | .error e => some e
  | .ok _ =>
    match s.releaseLock with
    | some msg => some (.errorf "try unlock failed, err: %s" [.str msg])
    | none => none

/-- The `for` loop of `TiDBDialect.lock`; it differs from the MySQL loop in
the argument of the final message (`retryCount`, not `maxRetry`). -/
def TiDBDialect.lockLoop (maxRetry : Nat) (getLock : Nat → Except String Bool)
    (retryCount : Nat) : LockRun :=
  if retryCount > maxRetry then
    ⟨some (.errorf "fail get lock after %d retries" [.int retryCount]), retryCount⟩
  else
    match getLock retryCount with
    | .error msg => ⟨some (.errorf "try lock failed, err: %s" [.str msg]), retryCount + 1⟩
    | .ok true => ⟨none, retryCount + 1⟩
    | .ok false => TiDBDialect.lockLoop maxRetry getLock (retryCount + 1)
termination_by maxRetry + 1 - retryCount
decreasing_by omega

/-- `TiDBDialect.lock`. -/
def TiDBDialect.lock (maxRetry : Nat) (s : LockServer) : LockRun :=
  match s.aid with
  | .error e => ⟨some e, 0⟩
  | .ok _ => TiDBDialect.lockLoop maxRetry s.getLock 0

/-- `TiDBDialect.unlock`. -/
def TiDBDialect.unlock (s : LockServer) : Option Err :=
  match s.aid with
  | .error e => some e
  | .ok _ =>
    match s.releaseLock with
    | some msg => some (.errorf "try unlock failed, err: %s" [.str msg])
    | none => none

/-- Interface dispatch of `lock`. -/
def SQLDialect.lock (d : SQLDialect) (maxRetry : Nat) (s : LockServer) : LockRun :=
  match d with
  | .PostgresDialect => PostgresDialect.lock s
  | .MySQLDialect => MySQLDialect.lock maxRetry s
  | .TiDBDialect _ => TiDBDialect.lock maxRetry s

/-- Interface dispatch of `unlock`. -/
def SQLDialect.unlock (d : SQLDialect) (s : LockServer) : Option Err :=
  match d with
  | .PostgresDialect => PostgresDialect.unlock s
  | .MySQLDialect => MySQLDialect.unlock s
  | .TiDBDialect _ => TiDBDialect.unlock s

/-! ## The migration runner (up.go, down.go, redo.go) -/

/-- A migration unit. `Up` and `Down` stand for the methods `m.Up(db)` and
`m.Down(db)`, which are not in the sources: they are parameters, the returned
error together with the database they leave behind. -/
structure Migration (DB : Type) where
  Version : Int
  Source : String
  Up : DB → Option Err × DB
  Down : DB → Option Err × DB

/-- The Go type `Migrations`, a slice of units. -/
abbrev Migrations (DB : Type) := List (Migration DB)

/-- Modelled from the spec: `Migrations.Current` is not in the sources. Spec,
section 3: "`current(v)` returns the unit whose version equals `v` (error
`NoCurrentVersion` if none)". -/
def Migrations.Current {DB : Type} (ms : Migrations DB) (v : Int) :
    Except Err (Migration DB) :=
  match ms.find? (fun m => m.Version = v) with
  | some m => .ok m
  | none => .error .ErrNoCurrentVersion

/-- Modelled from the spec: `Migrations.Next` is not in the sources. Spec,
section 3: "`next(v)` returns the smallest unit with version > v (error
`NoNextVersion` if none)": the unit of version above `v` that no other unit
of version above `v` undercuts. -/
def Migrations.Next {DB : Type} (ms : Migrations DB) (v : Int) :
    Except Err (Migration DB) :=
  match ms.find? (fun m => v < m.Version ∧
      ∀ m' ∈ ms, v < m'.Version → m.Version ≤ m'.Version) with
  | some m => .ok m
  | none => .error .ErrNoNextVersion

/-- Everything outside the four source files that a run depends on. The
constants `minVersion`, `maxVersion` and `maxRetry` and the functions
`GetDBVersion` and `CollectMigrations` are not in the sources: they are
parameters. `CollectMigrations lo hi` stands for `CollectMigrations(dir, lo, hi)`
on the directory of the run. -/
structure Env (DB : Type) where
  /-- the package variable `dialect` -/
  dialect : SQLDialect
  maxRetry : Nat
  server : LockServer
  minVersion : Int
  maxVersion : Int
  /-- the error of `db.Begin()` -/
  begin : Option Err
  /-- the error of `tx.Commit()` -/
  commit : Option Err
  GetDBVersion : DB → Except Err Int
  CollectMigrations : Int → Int → Except Err (Migrations DB)

/-- The outcome of a call: the returned error (`none` is `nil`), the database
afterwards, and the calls issued on `db` and `tx`, oldest first. -/
structure Run (DB : Type) where
  err : Option Err
  db : DB
  trace : List Event

/-- The error of `GetDialect().lock(tx)` in this environment. -/
def Env.lockErr {DB : Type} (env : Env DB) : Option Err :=
  ((GetDialect env.dialect).lock env.maxRetry env.server).err

/-- The error of `GetDialect().unlock(tx)` in this environment. -/
def Env.unlockErr {DB : Type} (env : Env DB) : Option Err :=
  (GetDialect env.dialect).unlock env.server

/-- The frame shared by all six operations (up.go 36-53 and 77-94, down.go
10-27 and 79-96, redo.go 10-27): `db.Begin()`, `GetDialect().lock(tx)`, and the
deferred function that calls `unlock` and `tx.Commit()` and only logs their
errors. `body` is the code that runs between the `defer` and the return. -/
def lockScope {DB : Type} (env : Env DB) (db : DB) (body : DB → Option (Run DB)) :
    Option (Run DB) :=
  match env.begin with
  | some e => some ⟨some e, db, [.begin]⟩
  | none =>
    match env.lockErr with
    | some e => some ⟨some e, db, [.begin, .lock]⟩
    | none =>
      match body db with
      | none => none
      | some r => some ⟨r.err, r.db, [.begin, .lock] ++ r.trace ++ [.unlock, .commit]⟩

/-- The closure `loop` of `UpTo` (up.go 15-34). -/
def UpTo.loop {DB : Type} (env : Env DB) (migrations : Migrations DB) (db : DB) : Run DB :=
  match env.GetDBVersion db with
  | .error e => ⟨some e, db, [.getDBVersion]⟩
  | .ok current =>
    match Migrations.Next migrations current with
    | .error e => ⟨some e, db, [.getDBVersion]⟩
    | .ok next =>
      ⟨(next.Up db).1, (next.Up db).2,
        [.getDBVersion, .up next.Version next.Source (next.Up db).1]⟩

/-- The `for` of `UpTo` (up.go 55-62) up to its exit: `loop()` is called until
it returns an error, which is handed back as it is. `none`: still looping after
`fuel` calls. -/
def UpTo.iterate {DB : Type} (env : Env DB) (migrations : Migrations DB) :
    Nat → DB → Option (Err × DB × List Event)
  | 0, _ => none
  | fuel + 1, db =>
    match (UpTo.loop env migrations db).err with
    | some e => some (e, (UpTo.loop env migrations db).db, (UpTo.loop env migrations db).trace)
    | none =>
      match UpTo.iterate env migrations fuel (UpTo.loop env migrations db).db with
      | none => none
      | some (e, db', tr) => some (e, db', (UpTo.loop env migrations db).trace ++ tr)

/-- `UpTo(db, dir, version)`. -/
def UpTo {DB : Type} (env : Env DB) (version : Int) (fuel : Nat) (db : DB) : Option (Run DB) :=
  match env.CollectMigrations env.minVersion version with
  | .error e => some ⟨some e, db, []⟩
  | .ok migrations =>
    lockScope env db fun db =>
      match UpTo.iterate env migrations fuel db with
      | none => none
      | some (e, db', tr) => some ⟨if e = .ErrNoNextVersion then none else some e, db', tr⟩

/-- `Up(db, dir)`. -/
def Up {DB : Type} (env : Env DB) (fuel : Nat) (db : DB) : Option (Run DB) :=
  UpTo env env.maxVersion fuel db

/-- `UpByOne(db, dir)`. -/
def UpByOne {DB : Type} (env : Env DB) (db : DB) : Option (Run DB) :=
  match env.CollectMigrations env.minVersion env.maxVersion with
  | .error e => some ⟨some e, db, []⟩
  | .ok migrations =>
    lockScope env db fun db =>
      match env.GetDBVersion db with
      | .error e => some ⟨some e, db, [.getDBVersion]⟩
      | .ok currentVersion =>
        match Migrations.Next migrations currentVersion with
        | .error e => some ⟨some e, db, [.getDBVersion]⟩
        | .ok next =>
          some ⟨(next.Up db).1, (next.Up db).2,
            [.getDBVersion, .up next.Version next.Source (next.Up db).1]⟩

/-- `Down(db, dir)`. -/
def Down {DB : Type} (env : Env DB) (db : DB) : Option (Run DB) :=
  lockScope env db fun db =>
    match env.GetDBVersion db with
    | .error e => some ⟨some e, db, [.getDBVersion]⟩
    | .ok currentVersion =>
      match env.CollectMigrations env.minVersion env.maxVersion with
      | .error e => some ⟨some e, db, [.getDBVersion]⟩
      | .ok migrations =>
        match Migrations.Current migrations currentVersion with
        | .error _ =>
          some ⟨some (.errorf "no migration %v" [.int currentVersion]), db, [.getDBVersion]⟩
        | .ok current =>
          some ⟨(current.Down db).1, (current.Down db).2,
            [.getDBVersion, .down current.Version current.Source (current.Down db).1]⟩

/-- The closure `loop` of `DownTo` (down.go 55-77). -/
def DownTo.loop {DB : Type} (env : Env DB) (migrations : Migrations DB) (version : Int)
    (db : DB) : Run DB :=
  match env.GetDBVersion db with
  | .error e => ⟨some e, db, [.getDBVersion]⟩
  | .ok currentVersion =>
    match Migrations.Current migrations currentVersion with
    | .error _ => ⟨some .ErrNoCurrentVersion, db, [.getDBVersion]⟩
    | .ok current =>
      if current.Version ≤ version then
        ⟨some .ErrNoNextVersion, db, [.getDBVersion]⟩
      else
        ⟨(current.Down db).1, (current.Down db).2,
          [.getDBVersion, .down current.Version current.Source (current.Down db).1]⟩

/-- The `for` of `DownTo` (down.go 98-105) up to its exit: `loop()` is called
until it returns an error, which is handed back as it is. `none`: still looping
after `fuel` calls. -/
def DownTo.iterate {DB : Type} (env : Env DB) (migrations : Migrations DB) (version : Int) :
    Nat → DB → Option (Err × DB × List Event)
  | 0, _ => none
  | fuel + 1, db =>
    match (DownTo.loop env migrations version db).err with
    | some e =>
      some (e, (DownTo.loop env migrations version db).db,
        (DownTo.loop env migrations version db).trace)
    | none =>
      match DownTo.iterate env migrations version fuel (DownTo.loop env migrations version db).db with
      | none => none
      | some (e, db', tr) => some (e, db', (DownTo.loop env migrations version db).trace ++ tr)

/-- `DownTo(db, dir, version)`. -/
def DownTo {DB : Type} (env : Env DB) (version : Int) (fuel : Nat) (db : DB) :
    Option (Run DB) :=
  match env.CollectMigrations env.minVersion env.maxVersion with
  | .error e => some ⟨some e, db, []⟩
  | .ok migrations =>
    lockScope env db fun db =>
      match DownTo.iterate env migrations version fuel db with
      | none => none
      | some (e, db', tr) =>
        some ⟨if e = .ErrNoNextVersion ∨ e = .ErrNoCurrentVersion then none else some e, db', tr⟩

/-- `Redo(db, dir)`. -/
def Redo {DB : Type} (env : Env DB) (db : DB) : Option (Run DB) :=
  lockScope env db fun db =>
    match env.GetDBVersion db with
    | .error e => some ⟨some e, db, [.getDBVersion]⟩
    | .ok currentVersion =>
      match env.CollectMigrations env.minVersion env.maxVersion with
      | .error e => some ⟨some e, db, [.getDBVersion]⟩
      | .ok migrations =>
        match Migrations.Current migrations currentVersion with
        | .error e => some ⟨some e, db, [.getDBVersion]⟩
        | .ok current =>
          match current.Down db with
          | (some e, db1) =>
            some ⟨some e, db1, [.getDBVersion, .down current.Version current.Source (some e)]⟩
          | (none, db1) =>
            some ⟨(current.Up db1).1, (current.Up db1).2,
              [.getDBVersion, .down current.Version current.Source none,
                .up current.Version current.Source (current.Up db1).1]⟩

/-- The six public operations of the runner. -/
inductive Op where
  | Up
  | UpTo (version : Int)
  | UpByOne
  | Down
  | DownTo (version : Int)
  | Redo
  deriving DecidableEq, Repr

/-- Run an operation; `fuel` bounds the passes of the loops of `UpTo` and
`DownTo` and is not used by the others. -/
def Op.run {DB : Type} (op : Op) (env : Env DB) (fuel : Nat) (db : DB) : Option (Run DB) :=
  match op with
  | .Up => Goose.Up env fuel db
  | .UpTo version => Goose.UpTo env version fuel db
  | .UpByOne => Goose.UpByOne env db
  | .Down => Goose.Down env db
  | .DownTo version => Goose.DownTo env version fuel db
  | .Redo => Goose.Redo env db

/-! ## Reading a trace -/

/-- The event is a call of a unit's `Up` or `Down`. -/
def Event.isAction : Event → Bool
  | .up _ _ _ => true
  | .down _ _ _ => true
  | _ => false

/-- The event is one of the calls made between `lock` and the deferred
function: `GetDBVersion`, a unit's `Up`, a unit's `Down`. -/
def Event.isStep : Event → Bool
  | .getDBVersion => true
  | .up _ _ _ => true
  | .down _ _ _ => true
  | _ => false

/-- The claim of C1 in its own words, to be compared with `Up`: the up actions
of the units `us`, in the order of the list, run one after the other from `db`
and cut off after the first one that fails. The result holds the error of that
one (`none` when none fails), the database reached, and the actions run. -/
def upsInOrder {DB : Type} : List (Migration DB) → DB → Run DB
  | [], db => ⟨none, db, []⟩
  | m :: rest, db =>
    match (m.Up db).1 with
    | some e => ⟨some e, (m.Up db).2, [.up m.Version m.Source (some e)]⟩
    | none =>
      ⟨(upsInOrder rest (m.Up db).2).err, (upsInOrder rest (m.Up db).2).db,
        .up m.Version m.Source none :: (upsInOrder rest (m.Up db).2).trace⟩

/-- The counterpart of `upsInOrder` for C9: the down actions of the units
`us`, in the order of the list, cut off after the first one that fails. -/
def downsInOrder {DB : Type} : List (Migration DB) → DB → Run DB
  | [], db => ⟨none, db, []⟩
  | m :: rest, db =>
    match (m.Down db).1 with
    | some e => ⟨some e, (m.Down db).2, [.down m.Version m.Source (some e)]⟩
    | none =>
      ⟨(downsInOrder rest (m.Down db).2).err, (downsInOrder rest (m.Down db).2).db,
        .down m.Version m.Source none :: (downsInOrder rest (m.Down db).2).trace⟩

/-- The version that a successful `Down` of the unit after `pre` leaves as
current: that of the unit before it, or 0 when it is the first. -/
def versionBefore {DB : Type} (pre : List (Migration DB)) : Int :=
  match pre.getLast? with
  | some p => p.Version
  | none => 0

/-- Some unit's `Up` or `Down` in the trace returned the error `e`. -/
def failedWith (tr : List Event) (e : Err) : Prop :=
  ∃ v s, Event.up v s (some e) ∈ tr ∨ Event.down v s (some e) ∈ tr

/-- What holds of the part of a run between `lock` and the deferred function:
it consists of steps, and an action that failed with an error that is no
sentinel made that error the result. -/
def Scoped {DB : Type} (r0 : Run DB) : Prop :=
  (∀ x ∈ r0.trace, x.isStep = true) ∧
  ∀ x, failedWith r0.trace x → x.isSentinel = false → r0.err = some x

/-- The call of `CollectMigrations` that the operation makes before
`db.Begin()` returns a collection. `UpTo`, `Up`, `UpByOne` and `DownTo` collect
first and return at once when that fails (up.go 10-13, 72-75, down.go 50-53);
`Down` and `Redo` collect only inside the lock frame, so nothing is asked of
them here. -/
def Op.collected {DB : Type} (op : Op) (env : Env DB) : Prop :=
  match op with
  | .Up => ∃ ms, env.CollectMigrations env.minVersion env.maxVersion = .ok ms
  | .UpTo version => ∃ ms, env.CollectMigrations env.minVersion version = .ok ms
  | .UpByOne => ∃ ms, env.CollectMigrations env.minVersion env.maxVersion = .ok ms
  | .Down => True
  | .DownTo _ => ∃ ms, env.CollectMigrations env.minVersion env.maxVersion = .ok ms
  | .Redo => True

/-! ## Concrete environments -/

/-- A server on which the lock id is 42, the first two `GET_LOCK` calls time
out and the third one obtains the lock; every other statement succeeds. -/
def busyServer : LockServer :=
  ⟨.ok 42, none, none, fun i => .ok (decide (2 ≤ i)), none⟩

/-- A server on which every locking statement succeeds at once. -/
def idleServer : LockServer :=
  ⟨.ok 42, none, none, fun _ => .ok true, none⟩

/-- A server on which `pg_advisory_lock` fails. -/
def downServer : LockServer :=
  ⟨.ok 42, some "connection refused", none, fun _ => .ok true, none⟩

/-- A unit for a database that consists of its current version: `Up` makes
`version` current, `Down` makes `before` current, and both succeed. -/
def unit (version before : Int) (source : String) : Migration Int :=
  ⟨version, source, fun _ => (none, version), fun _ => (none, before)⟩

/-- A unit whose `Up` and `Down` fail and leave the database as it is. -/
def brokenUnit (version : Int) (source : String) : Migration Int :=
  ⟨version, source, fun db => (some (.other "syntax error"), db),
    fun db => (some (.other "syntax error"), db)⟩

/-- Three units, versions 1, 2, 3. -/
def units123 : Migrations Int :=
  [unit 1 0 "1_a.sql", unit 2 1 "2_b.sql", unit 3 2 "3_c.sql"]

/-- The units 1, 2, 3 with a broken unit 2. -/
def units1b3 : Migrations Int :=
  [unit 1 0 "1_a.sql", brokenUnit 2 "2_b.sql", unit 3 2 "3_c.sql"]

/-- An environment over the units `ms`: Postgres on the server `server`, a
database that is its current version, and a directory from which
`CollectMigrations(dir, lo, hi)` yields the units of `ms` with
`lo ≤ version ≤ hi`. -/
def envOf (server : LockServer) (ms : Migrations Int) : Env Int :=
  { dialect := .PostgresDialect
    maxRetry := 3
    server := server
    minVersion := 0
    maxVersion := 9223372036854775807
    begin := none
    commit := none
    GetDBVersion := fun db => .ok db
    CollectMigrations := fun lo hi =>
      .ok (ms.filter (fun m => decide (lo ≤ m.Version) && decide (m.Version ≤ hi))) }

/-- A collection whose only unit has version 0. -/
def units0 : Migrations Int :=
  [unit 0 0 "0_base.sql"]

/-! ## Lemmas on the retry loops of `lock` -/

theorem mysql_lockLoop_obtained (maxRetry : Nat) (getLock : Nat → Except String Bool)
    (i : Nat) (hi : i ≤ maxRetry) (htrue : getLock i = .ok true) :
    ∀ n k, i - k = n → k ≤ i → (∀ j, k ≤ j → j < i → getLock j = .ok false) →
      MySQLDialect.lockLoop maxRetry getLock k = ⟨none, i + 1⟩ := by
  intro n
  induction n with
  | zero =>
    intro k hk hki _
    have hk' : k = i := by omega
    subst hk'
    rw [MySQLDialect.lockLoop]
    simp [Nat.not_lt.mpr hi, htrue]
  | succ n ih =>
    intro k hk hki hfalse
    rw [MySQLDialect.lockLoop]
    have h1 : ¬ k > maxRetry := by omega
    have h2 : getLock k = .ok false := hfalse k (Nat.le_refl k) (by omega)
    simp only [h1, if_false, h2]
    exact ih (k + 1) (by omega) (by omega) (fun j hj hji => hfalse j (by omega) hji)

theorem mysql_lockLoop_exhausted (maxRetry : Nat) (getLock : Nat → Except String Bool)
    (hfalse : ∀ j, j ≤ maxRetry → getLock j = .ok false) :
    ∀ n k, maxRetry + 1 - k = n → k ≤ maxRetry + 1 →
      MySQLDialect.lockLoop maxRetry getLock k =
        ⟨some (.errorf "fail get lock after %d retries" [.int maxRetry]), maxRetry + 1⟩ := by
  intro n
  induction n with
  | zero =>
    intro k hk hkm
    have hk' : k = maxRetry + 1 := by omega
    subst hk'
    rw [MySQLDialect.lockLoop]
    simp
  | succ n ih =>
    intro k hk hkm
    rw [MySQLDialect.lockLoop]
    have h1 : ¬ k > maxRetry := by omega
    have h2 : getLock k = .ok false := hfalse k (by omega)
    simp only [h1, if_false, h2]
    exact ih (k + 1) (by omega) (by omega)

theorem tidb_lockLoop_obtained (maxRetry : Nat) (getLock : Nat → Except String Bool)
    (i : Nat) (hi : i ≤ maxRetry) (htrue : getLock i = .ok true) :
    ∀ n k, i - k = n → k ≤ i → (∀ j, k ≤ j → j < i → getLock j = .ok false) →
      TiDBDialect.lockLoop maxRetry getLock k = ⟨none, i + 1⟩ := by
  intro n
  induction n with
  | zero =>
    intro k hk hki _
    have hk' : k = i := by omega
    subst hk'
    rw [TiDBDialect.lockLoop]
    simp [Nat.not_lt.mpr hi, htrue]
  | succ n ih =>
    intro k hk hki hfalse
    rw [TiDBDialect.lockLoop]
    have h1 : ¬ k > maxRetry := by omega
    have h2 : getLock k = .ok false := hfalse k (Nat.le_refl k) (by omega)
    simp only [h1, if_false, h2]
    exact ih (k + 1) (by omega) (by omega) (fun j hj hji => hfalse j (by omega) hji)

theorem tidb_lockLoop_exhausted (maxRetry : Nat) (getLock : Nat → Except String Bool)
    (hfalse : ∀ j, j ≤ maxRetry → getLock j = .ok false) :
    ∀ n k, maxRetry + 1 - k = n → k ≤ maxRetry + 1 →
      TiDBDialect.lockLoop maxRetry getLock k =
        ⟨some (.errorf "fail get lock after %d retries" [.int ((maxRetry + 1 : Nat) : Int)]),
          maxRetry + 1⟩ := by
  intro n
  induction n with
  | zero =>
    intro k hk hkm
    have hk' : k = maxRetry + 1 := by omega
    subst hk'
    rw [TiDBDialect.lockLoop]
    simp
  | succ n ih =>
    intro k hk hkm
    rw [TiDBDialect.lockLoop]
    have h1 : ¬ k > maxRetry := by omega
    have h2 : getLock k = .ok false := hfalse k (by omega)
    simp only [h1, if_false, h2]
    exact ih (k + 1) (by omega) (by omega)

/-- Among answers that are never a failed query, either some attempt within the
bound obtains the lock, and then there is a first one, or all of them time out. -/
theorem getLock_first_or_none (maxRetry : Nat) (getLock : Nat → Except String Bool)
    (hq : ∀ i, ∃ b, getLock i = .ok b) :
    (∃ i, i ≤ maxRetry ∧ getLock i = .ok true ∧ ∀ j, j < i → getLock j = .ok false) ∨
    (∀ j, j ≤ maxRetry → getLock j = .ok false) := by
  classical
  by_cases h : ∃ i, i ≤ maxRetry ∧ getLock i = .ok true
  · left
    refine ⟨Nat.find h, (Nat.find_spec h).1, (Nat.find_spec h).2, ?_⟩
    intro j hj
    have hmin := Nat.find_min h hj
    obtain ⟨b, hb⟩ := hq j
    cases b with
    | false => exact hb
    | true =>
      exact absurd ⟨Nat.le_trans (Nat.le_of_lt hj) (Nat.find_spec h).1, hb⟩ hmin
  · right
    intro j hj
    obtain ⟨b, hb⟩ := hq j
    cases b with
    | false => exact hb
    | true => exact absurd ⟨j, hj, hb⟩ h

/-! ## Lemmas on the lock frame and on the loops -/

theorem lockScope_locked {DB : Type} (env : Env DB) (db : DB) (body : DB → Option (Run DB))
    (hbegin : env.begin = none) (hlock : env.lockErr = none) :
    lockScope env db body =
      (body db).map fun r0 =>
        ⟨r0.err, r0.db, [.begin, .lock] ++ r0.trace ++ [.unlock, .commit]⟩ := by
  unfold lockScope
  rw [hbegin, hlock]
  cases body db <;> rfl

theorem lockScope_lock_err {DB : Type} (env : Env DB) (db : DB) (body : DB → Option (Run DB))
    (e : Err) (hlock : env.lockErr = some e) :
    lockScope env db body =
      some (match env.begin with
        | some e' => ⟨some e', db, [.begin]⟩
        | none => ⟨some e, db, [.begin, .lock]⟩) := by
  unfold lockScope
  rw [hlock]
  cases env.begin <;> rfl

theorem lockScope_cases {DB : Type} (env : Env DB) (db : DB) (body : DB → Option (Run DB))
    (r : Run DB) (h : lockScope env db body = some r) :
    (∃ e, env.begin = some e ∧ r = ⟨some e, db, [.begin]⟩) ∨
    (∃ e, env.begin = none ∧ env.lockErr = some e ∧ r = ⟨some e, db, [.begin, .lock]⟩) ∨
    (env.begin = none ∧ env.lockErr = none ∧ ∃ r0, body db = some r0 ∧
      r = ⟨r0.err, r0.db, [.begin, .lock] ++ r0.trace ++ [.unlock, .commit]⟩) := by
  unfold lockScope at h
  cases hb : env.begin with
  | some e =>
    rw [hb] at h
    exact Or.inl ⟨e, rfl, (Option.some.inj h).symm⟩
  | none =>
    rw [hb] at h
    cases hl : env.lockErr with
    | some e =>
      rw [hl] at h
      exact Or.inr (Or.inl ⟨e, rfl, rfl, (Option.some.inj h).symm⟩)
    | none =>
      rw [hl] at h
      cases hbody : body db with
      | none => rw [hbody] at h; cases h
      | some r0 =>
        rw [hbody] at h
        exact Or.inr (Or.inr ⟨rfl, rfl, r0, rfl, (Option.some.inj h).symm⟩)

theorem failedWith_append {tr1 tr2 : List Event} {e : Err} :
    failedWith (tr1 ++ tr2) e ↔ failedWith tr1 e ∨ failedWith tr2 e := by
  unfold failedWith
  constructor
  · rintro ⟨v, s, h | h⟩
    · rcases List.mem_append.mp h with h | h
      · exact Or.inl ⟨v, s, Or.inl h⟩
      · exact Or.inr ⟨v, s, Or.inl h⟩
    · rcases List.mem_append.mp h with h | h
      · exact Or.inl ⟨v, s, Or.inr h⟩
      · exact Or.inr ⟨v, s, Or.inr h⟩
  · rintro (⟨v, s, h | h⟩ | ⟨v, s, h | h⟩)
    · exact ⟨v, s, Or.inl (List.mem_append_left _ h)⟩
    · exact ⟨v, s, Or.inr (List.mem_append_left _ h)⟩
    · exact ⟨v, s, Or.inl (List.mem_append_right _ h)⟩
    · exact ⟨v, s, Or.inr (List.mem_append_right _ h)⟩

theorem upLoop_version_err {DB : Type} (env : Env DB) (ms : Migrations DB) (db : DB)
    (e : Err) (hv : env.GetDBVersion db = .error e) :
    UpTo.loop env ms db = ⟨some e, db, [.getDBVersion]⟩ := by
  simp [UpTo.loop, hv]

theorem upLoop_next_err {DB : Type} (env : Env DB) (ms : Migrations DB) (db : DB)
    (c : Int) (e : Err) (hv : env.GetDBVersion db = .ok c)
    (hn : Migrations.Next ms c = .error e) :
    UpTo.loop env ms db = ⟨some e, db, [.getDBVersion]⟩ := by
  simp [UpTo.loop, hv, hn]

theorem upLoop_next_ok {DB : Type} (env : Env DB) (ms : Migrations DB) (db : DB)
    (c : Int) (m : Migration DB) (hv : env.GetDBVersion db = .ok c)
    (hn : Migrations.Next ms c = .ok m) :
    UpTo.loop env ms db =
      ⟨(m.Up db).1, (m.Up db).2, [.getDBVersion, .up m.Version m.Source (m.Up db).1]⟩ := by
  simp [UpTo.loop, hv, hn]

theorem downLoop_version_err {DB : Type} (env : Env DB) (ms : Migrations DB) (t : Int)
    (db : DB) (e : Err) (hv : env.GetDBVersion db = .error e) :
    DownTo.loop env ms t db = ⟨some e, db, [.getDBVersion]⟩ := by
  simp [DownTo.loop, hv]

theorem downLoop_current_err {DB : Type} (env : Env DB) (ms : Migrations DB) (t : Int)
    (db : DB) (c : Int) (e : Err) (hv : env.GetDBVersion db = .ok c)
    (hn : Migrations.Current ms c = .error e) :
    DownTo.loop env ms t db = ⟨some .ErrNoCurrentVersion, db, [.getDBVersion]⟩ := by
  simp [DownTo.loop, hv, hn]

theorem downLoop_at_target {DB : Type} (env : Env DB) (ms : Migrations DB) (t : Int)
    (db : DB) (c : Int) (m : Migration DB) (hv : env.GetDBVersion db = .ok c)
    (hn : Migrations.Current ms c = .ok m) (hle : m.Version ≤ t) :
    DownTo.loop env ms t db = ⟨some .ErrNoNextVersion, db, [.getDBVersion]⟩ := by
  simp [DownTo.loop, hv, hn, hle]

theorem downLoop_above_target {DB : Type} (env : Env DB) (ms : Migrations DB) (t : Int)
    (db : DB) (c : Int) (m : Migration DB) (hv : env.GetDBVersion db = .ok c)
    (hn : Migrations.Current ms c = .ok m) (hlt : ¬ m.Version ≤ t) :
    DownTo.loop env ms t db =
      ⟨(m.Down db).1, (m.Down db).2,
        [.getDBVersion, .down m.Version m.Source (m.Down db).1]⟩ := by
  simp [DownTo.loop, hv, hn, hlt]

theorem upLoop_steps {DB : Type} (env : Env DB) (ms : Migrations DB) (db : DB) :
    ∀ x ∈ (UpTo.loop env ms db).trace, x.isStep = true := by
  cases hv : env.GetDBVersion db with
  | error e => rw [upLoop_version_err env ms db e hv]; simp [Event.isStep]
  | ok c =>
    cases hn : Migrations.Next ms c with
    | error e => rw [upLoop_next_err env ms db c e hv hn]; simp [Event.isStep]
    | ok m => rw [upLoop_next_ok env ms db c m hv hn]; simp [Event.isStep]

theorem upLoop_failed {DB : Type} (env : Env DB) (ms : Migrations DB) (db : DB) (e : Err)
    (h : failedWith (UpTo.loop env ms db).trace e) : (UpTo.loop env ms db).err = some e := by
  unfold failedWith at h
  cases hv : env.GetDBVersion db with
  | error e0 => rw [upLoop_version_err env ms db e0 hv] at h; simp at h
  | ok c =>
    cases hn : Migrations.Next ms c with
    | error e0 => rw [upLoop_next_err env ms db c e0 hv hn] at h; simp at h
    | ok m =>
      rw [upLoop_next_ok env ms db c m hv hn] at h ⊢
      simp at h
      simp [h]

theorem downLoop_steps {DB : Type} (env : Env DB) (ms : Migrations DB) (t : Int) (db : DB) :
    ∀ x ∈ (DownTo.loop env ms t db).trace, x.isStep = true := by
  cases hv : env.GetDBVersion db with
  | error e => rw [downLoop_version_err env ms t db e hv]; simp [Event.isStep]
  | ok c =>
    cases hn : Migrations.Current ms c with
    | error e => rw [downLoop_current_err env ms t db c e hv hn]; simp [Event.isStep]
    | ok m =>
      by_cases hle : m.Version ≤ t
      · rw [downLoop_at_target env ms t db c m hv hn hle]; simp [Event.isStep]
      · rw [downLoop_above_target env ms t db c m hv hn hle]; simp [Event.isStep]

theorem downLoop_failed {DB : Type} (env : Env DB) (ms : Migrations DB) (t : Int) (db : DB)
    (e : Err) (h : failedWith (DownTo.loop env ms t db).trace e) :
    (DownTo.loop env ms t db).err = some e := by
  unfold failedWith at h
  cases hv : env.GetDBVersion db with
  | error e0 => rw [downLoop_version_err env ms t db e0 hv] at h; simp at h
  | ok c =>
    cases hn : Migrations.Current ms c with
    | error e0 => rw [downLoop_current_err env ms t db c e0 hv hn] at h; simp at h
    | ok m =>
      by_cases hle : m.Version ≤ t
      · rw [downLoop_at_target env ms t db c m hv hn hle] at h; simp at h
      · rw [downLoop_above_target env ms t db c m hv hn hle] at h ⊢
        simp at h
        simp [h]

theorem upIterate_scoped {DB : Type} (env : Env DB) (ms : Migrations DB) :
    ∀ (fuel : Nat) (db : DB) (e : Err) (db' : DB) (tr : List Event),
      UpTo.iterate env ms fuel db = some (e, db', tr) →
      (∀ x ∈ tr, x.isStep = true) ∧ (∀ x, failedWith tr x → x = e) := by
  intro fuel
  induction fuel with
  | zero => intro db e db' tr h; simp [UpTo.iterate] at h
  | succ n ih =>
    intro db e db' tr h
    unfold UpTo.iterate at h
    cases herr : (UpTo.loop env ms db).err with
    | some e0 =>
      rw [herr] at h
      simp only [Option.some.injEq, Prod.mk.injEq] at h
      obtain ⟨he, _, htr⟩ := h
      subst he htr
      refine ⟨upLoop_steps env ms db, ?_⟩
      intro x hx
      have := upLoop_failed env ms db x hx
      rw [herr] at this
      exact (Option.some.inj this).symm
    | none =>
      rw [herr] at h
      cases hrec : UpTo.iterate env ms n (UpTo.loop env ms db).db with
      | none => rw [hrec] at h; simp at h
      | some res =>
        obtain ⟨e1, db1, tr1⟩ := res
        rw [hrec] at h
        simp only [Option.some.injEq, Prod.mk.injEq] at h
        obtain ⟨he, _, htr⟩ := h
        subst he htr
        obtain ⟨ih1, ih2⟩ := ih _ _ _ _ hrec
        refine ⟨?_, ?_⟩
        · intro x hx
          rcases List.mem_append.mp hx with hx | hx
          · exact upLoop_steps env ms db x hx
          · exact ih1 x hx
        · intro x hx
          rcases failedWith_append.mp hx with hx | hx
          · have := upLoop_failed env ms db x hx
            rw [herr] at this
            cases this
          · exact ih2 x hx

theorem downIterate_scoped {DB : Type} (env : Env DB) (ms : Migrations DB) (t : Int) :
    ∀ (fuel : Nat) (db : DB) (e : Err) (db' : DB) (tr : List Event),
      DownTo.iterate env ms t fuel db = some (e, db', tr) →
      (∀ x ∈ tr, x.isStep = true) ∧ (∀ x, failedWith tr x → x = e) := by
  intro fuel
  induction fuel with
  | zero => intro db e db' tr h; simp [DownTo.iterate] at h
  | succ n ih =>
    intro db e db' tr h
    unfold DownTo.iterate at h
    cases herr : (DownTo.loop env ms t db).err with
    | some e0 =>
      rw [herr] at h
      simp only [Option.some.injEq, Prod.mk.injEq] at h
      obtain ⟨he, _, htr⟩ := h
      subst he htr
      refine ⟨downLoop_steps env ms t db, ?_⟩
      intro x hx
      have := downLoop_failed env ms t db x hx
      rw [herr] at this
      exact (Option.some.inj this).symm
    | none =>
      rw [herr] at h
      cases hrec : DownTo.iterate env ms t n (DownTo.loop env ms t db).db with
      | none => rw [hrec] at h; simp at h
      | some res =>
        obtain ⟨e1, db1, tr1⟩ := res
        rw [hrec] at h
        simp only [Option.some.injEq, Prod.mk.injEq] at h
        obtain ⟨he, _, htr⟩ := h
        subst he htr
        obtain ⟨ih1, ih2⟩ := ih _ _ _ _ hrec
        refine ⟨?_, ?_⟩
        · intro x hx
          rcases List.mem_append.mp hx with hx | hx
          · exact downLoop_steps env ms t db x hx
          · exact ih1 x hx
        · intro x hx
          rcases failedWith_append.mp hx with hx | hx
          · have := downLoop_failed env ms t db x hx
            rw [herr] at this
            cases this
          · exact ih2 x hx

theorem scoped_of_no_action {DB : Type} (e : Option Err) (db : DB) :
    Scoped (⟨e, db, [.getDBVersion]⟩ : Run DB) := by
  refine ⟨by simp [Event.isStep], ?_⟩
  rintro x ⟨v, s, h | h⟩ <;> simp at h

theorem scoped_of_down {DB : Type} (e : Option Err) (db : DB) (v : Int) (s : String) :
    Scoped (⟨e, db, [.getDBVersion, .down v s e]⟩ : Run DB) := by
  refine ⟨by simp [Event.isStep], ?_⟩
  rintro x ⟨v', s', h | h⟩ _ <;> simp at h
  exact h.2.2.symm

theorem scoped_of_loop_up {DB : Type} (env : Env DB) (ms : Migrations DB) (db : DB) :
    Scoped (UpTo.loop env ms db) :=
  ⟨upLoop_steps env ms db, fun x hx _ => upLoop_failed env ms db x hx⟩

/-- The code of `UpByOne` after the `defer` is the closure `loop` of `UpTo`. -/
theorem UpByOne_eq_loop {DB : Type} (env : Env DB) (ms : Migrations DB) (db : DB)
    (hcollect : env.CollectMigrations env.minVersion env.maxVersion = .ok ms) :
    UpByOne env db = lockScope env db fun db => some (UpTo.loop env ms db) := by
  unfold UpByOne
  rw [hcollect]
  simp only []
  congr 1
  funext d
  cases hv : env.GetDBVersion d with
  | error e => rw [upLoop_version_err env ms d e hv]
  | ok c =>
    cases hn : Migrations.Next ms c with
    | error e => rw [upLoop_next_err env ms d c e hv hn]; simp [hn]
    | ok m => rw [upLoop_next_ok env ms d c m hv hn]; simp [hn]

theorem lockScope_scoped {DB : Type} (env : Env DB) (db : DB) (body : DB → Option (Run DB))
    (r : Run DB) (h : lockScope env db body = some r)
    (hbody : ∀ r0, body db = some r0 → Scoped r0) :
    (∃ e, r = ⟨some e, db, []⟩) ∨
    (∃ e, env.begin = some e ∧ r = ⟨some e, db, [.begin]⟩) ∨
    (∃ e, env.begin = none ∧ env.lockErr = some e ∧ r = ⟨some e, db, [.begin, .lock]⟩) ∨
    (env.begin = none ∧ env.lockErr = none ∧ ∃ r0 : Run DB,
      r = ⟨r0.err, r0.db, [.begin, .lock] ++ r0.trace ++ [.unlock, .commit]⟩ ∧ Scoped r0) := by
  rcases lockScope_cases env db body r h with h1 | h1 | ⟨hb, hl, r0, hr0, hr⟩
  · exact Or.inr (Or.inl h1)
  · exact Or.inr (Or.inr (Or.inl h1))
  · exact Or.inr (Or.inr (Or.inr ⟨hb, hl, r0, hr, hbody r0 hr0⟩))

theorem UpTo_cases {DB : Type} (env : Env DB) (version : Int) (fuel : Nat) (db : DB)
    (r : Run DB) (h : UpTo env version fuel db = some r) :
    (∃ e, r = ⟨some e, db, []⟩) ∨
    (∃ e, env.begin = some e ∧ r = ⟨some e, db, [.begin]⟩) ∨
    (∃ e, env.begin = none ∧ env.lockErr = some e ∧ r = ⟨some e, db, [.begin, .lock]⟩) ∨
    (env.begin = none ∧ env.lockErr = none ∧ ∃ r0 : Run DB,
      r = ⟨r0.err, r0.db, [.begin, .lock] ++ r0.trace ++ [.unlock, .commit]⟩ ∧ Scoped r0) := by
  unfold UpTo at h
  cases hc : env.CollectMigrations env.minVersion version with
  | error e =>
    rw [hc] at h
    exact Or.inl ⟨e, (Option.some.inj h).symm⟩
  | ok ms =>
    rw [hc] at h
    refine lockScope_scoped env db _ r h ?_
    intro r0 hr0
    cases hit : UpTo.iterate env ms fuel db with
    | none => simp [hit] at hr0
    | some res =>
      obtain ⟨e, db', tr⟩ := res
      simp only [hit, Option.some.injEq] at hr0
      subst hr0
      obtain ⟨h1, h2⟩ := upIterate_scoped env ms fuel db e db' tr hit
      refine ⟨h1, ?_⟩
      intro x hx hs
      have hxe := h2 x hx
      subst hxe
      have hne : x ≠ .ErrNoNextVersion := by
        intro hx'; subst hx'; simp [Err.isSentinel] at hs
      simp [hne]

theorem DownTo_cases {DB : Type} (env : Env DB) (version : Int) (fuel : Nat) (db : DB)
    (r : Run DB) (h : DownTo env version fuel db = some r) :
    (∃ e, r = ⟨some e, db, []⟩) ∨
    (∃ e, env.begin = some e ∧ r = ⟨some e, db, [.begin]⟩) ∨
    (∃ e, env.begin = none ∧ env.lockErr = some e ∧ r = ⟨some e, db, [.begin, .lock]⟩) ∨
    (env.begin = none ∧ env.lockErr = none ∧ ∃ r0 : Run DB,
      r = ⟨r0.err, r0.db, [.begin, .lock] ++ r0.trace ++ [.unlock, .commit]⟩ ∧ Scoped r0) := by
  unfold DownTo at h
  cases hc : env.CollectMigrations env.minVersion env.maxVersion with
  | error e =>
    rw [hc] at h
    exact Or.inl ⟨e, (Option.some.inj h).symm⟩
  | ok ms =>
    rw [hc] at h
    refine lockScope_scoped env db _ r h ?_
    intro r0 hr0
    cases hit : DownTo.iterate env ms version fuel db with
    | none => simp [hit] at hr0
    | some res =>
      obtain ⟨e, db', tr⟩ := res
      simp only [hit, Option.some.injEq] at hr0
      subst hr0
      obtain ⟨h1, h2⟩ := downIterate_scoped env ms version fuel db e db' tr hit
      refine ⟨h1, ?_⟩
      intro x hx hs
      have hxe := h2 x hx
      subst hxe
      have hne : ¬ (x = .ErrNoNextVersion ∨ x = .ErrNoCurrentVersion) := by
        rintro (hx' | hx') <;> subst hx' <;> simp [Err.isSentinel] at hs
      simp [hne]

theorem UpByOne_cases {DB : Type} (env : Env DB) (db : DB)
    (r : Run DB) (h : UpByOne env db = some r) :
    (∃ e, r = ⟨some e, db, []⟩) ∨
    (∃ e, env.begin = some e ∧ r = ⟨some e, db, [.begin]⟩) ∨
    (∃ e, env.begin = none ∧ env.lockErr = some e ∧ r = ⟨some e, db, [.begin, .lock]⟩) ∨
    (env.begin = none ∧ env.lockErr = none ∧ ∃ r0 : Run DB,
      r = ⟨r0.err, r0.db, [.begin, .lock] ++ r0.trace ++ [.unlock, .commit]⟩ ∧ Scoped r0) := by
  cases hc : env.CollectMigrations env.minVersion env.maxVersion with
  | error e =>
    unfold UpByOne at h
    rw [hc] at h
    exact Or.inl ⟨e, (Option.some.inj h).symm⟩
  | ok ms =>
    rw [UpByOne_eq_loop env ms db hc] at h
    refine lockScope_scoped env db _ r h ?_
    intro r0 hr0
    simp only [Option.some.injEq] at hr0
    subst hr0
    exact scoped_of_loop_up env ms db

theorem Down_cases {DB : Type} (env : Env DB) (db : DB)
    (r : Run DB) (h : Down env db = some r) :
    (∃ e, r = ⟨some e, db, []⟩) ∨
    (∃ e, env.begin = some e ∧ r = ⟨some e, db, [.begin]⟩) ∨
    (∃ e, env.begin = none ∧ env.lockErr = some e ∧ r = ⟨some e, db, [.begin, .lock]⟩) ∨
    (env.begin = none ∧ env.lockErr = none ∧ ∃ r0 : Run DB,
      r = ⟨r0.err, r0.db, [.begin, .lock] ++ r0.trace ++ [.unlock, .commit]⟩ ∧ Scoped r0) := by
  unfold Down at h
  refine lockScope_scoped env db _ r h ?_
  intro r0 hr0
  cases hv : env.GetDBVersion db with
  | error e =>
    simp only [hv, Option.some.injEq] at hr0
    subst hr0
    exact scoped_of_no_action _ _
  | ok c =>
    cases hc : env.CollectMigrations env.minVersion env.maxVersion with
    | error e =>
      simp only [hv, hc, Option.some.injEq] at hr0
      subst hr0
      exact scoped_of_no_action _ _
    | ok ms =>
      cases hcur : Migrations.Current ms c with
      | error e =>
        simp only [hv, hc, hcur, Option.some.injEq] at hr0
        subst hr0
        exact scoped_of_no_action _ _
      | ok m =>
        simp only [hv, hc, hcur, Option.some.injEq] at hr0
        subst hr0
        exact scoped_of_down _ _ _ _

theorem Redo_cases {DB : Type} (env : Env DB) (db : DB)
    (r : Run DB) (h : Redo env db = some r) :
    (∃ e, r = ⟨some e, db, []⟩) ∨
    (∃ e, env.begin = some e ∧ r = ⟨some e, db, [.begin]⟩) ∨
    (∃ e, env.begin = none ∧ env.lockErr = some e ∧ r = ⟨some e, db, [.begin, .lock]⟩) ∨
    (env.begin = none ∧ env.lockErr = none ∧ ∃ r0 : Run DB,
      r = ⟨r0.err, r0.db, [.begin, .lock] ++ r0.trace ++ [.unlock, .commit]⟩ ∧ Scoped r0) := by
  unfold Redo at h
  refine lockScope_scoped env db _ r h ?_
  intro r0 hr0
  cases hv : env.GetDBVersion db with
  | error e =>
    simp only [hv, Option.some.injEq] at hr0
    subst hr0
    exact scoped_of_no_action _ _
  | ok c =>
    cases hc : env.CollectMigrations env.minVersion env.maxVersion with
    | error e =>
      simp only [hv, hc, Option.some.injEq] at hr0
      subst hr0
      exact scoped_of_no_action _ _
    | ok ms =>
      cases hcur : Migrations.Current ms c with
      | error e =>
        simp only [hv, hc, hcur, Option.some.injEq] at hr0
        subst hr0
        exact scoped_of_no_action _ _
      | ok m =>
        simp only [hv, hc, hcur] at hr0
        cases hd : m.Down db with
        | mk e1 db1 =>
          cases e1 with
          | some e =>
            simp only [hd, Option.some.injEq] at hr0
            subst hr0
            exact scoped_of_down _ _ _ _
          | none =>
            simp only [hd, Option.some.injEq] at hr0
            subst hr0
            refine ⟨by simp [Event.isStep], ?_⟩
            rintro x ⟨v', s', h | h⟩ _ <;> simp at h
            exact h.2.2.symm

theorem Op.run_cases {DB : Type} (op : Op) (env : Env DB) (fuel : Nat) (db : DB)
    (r : Run DB) (h : op.run env fuel db = some r) :
    (∃ e, r = ⟨some e, db, []⟩) ∨
    (∃ e, env.begin = some e ∧ r = ⟨some e, db, [.begin]⟩) ∨
    (∃ e, env.begin = none ∧ env.lockErr = some e ∧ r = ⟨some e, db, [.begin, .lock]⟩) ∨
    (env.begin = none ∧ env.lockErr = none ∧ ∃ r0 : Run DB,
      r = ⟨r0.err, r0.db, [.begin, .lock] ++ r0.trace ++ [.unlock, .commit]⟩ ∧ Scoped r0) := by
  cases op with
  | Up => exact UpTo_cases env env.maxVersion fuel db r h
  | UpTo version => exact UpTo_cases env version fuel db r h
  | UpByOne => exact UpByOne_cases env db r h
  | Down => exact Down_cases env db r h
  | DownTo version => exact DownTo_cases env version fuel db r h
  | Redo => exact Redo_cases env db r h

theorem lockScope_lock_refused {DB : Type} (env : Env DB) (db : DB)
    (body : DB → Option (Run DB)) (e : Err) (hbegin : env.begin = none)
    (hlock : env.lockErr = some e) :
    lockScope env db body = some ⟨some e, db, [.begin, .lock]⟩ := by
  rw [lockScope_lock_err env db body e hlock, hbegin]

theorem lockScope_locked_mem {DB : Type} (env : Env DB) (db : DB)
    (body : DB → Option (Run DB)) (r : Run DB) (hbegin : env.begin = none)
    (hlock : env.lockErr = none) (h : lockScope env db body = some r) :
    Event.lock ∈ r.trace := by
  rcases lockScope_cases env db body r h with ⟨e, hb, _⟩ | ⟨e, _, hl, _⟩ | ⟨_, _, r0, _, hr⟩
  · rw [hbegin] at hb; cases hb
  · rw [hlock] at hl; cases hl
  · subst hr; simp

/-- With the transaction begun, the lock granted and the collection obtained,
a run that returns has called `lock`. -/
theorem run_takes_lock {DB : Type} (op : Op) (env : Env DB) (fuel : Nat) (db : DB)
    (r : Run DB) (hbegin : env.begin = none) (hlock : env.lockErr = none)
    (hcollected : op.collected env) (hrun : op.run env fuel db = some r) :
    Event.lock ∈ r.trace := by
  cases op with
  | Up =>
    obtain ⟨ms, hc⟩ := hcollected
    have h : UpTo env env.maxVersion fuel db = some r := hrun
    unfold UpTo at h
    rw [hc] at h
    exact lockScope_locked_mem env db _ r hbegin hlock h
  | UpTo version =>
    obtain ⟨ms, hc⟩ := hcollected
    have h : UpTo env version fuel db = some r := hrun
    unfold UpTo at h
    rw [hc] at h
    exact lockScope_locked_mem env db _ r hbegin hlock h
  | UpByOne =>
    obtain ⟨ms, hc⟩ := hcollected
    have h : UpByOne env db = some r := hrun
    unfold UpByOne at h
    rw [hc] at h
    exact lockScope_locked_mem env db _ r hbegin hlock h
  | Down =>
    have h : Down env db = some r := hrun
    unfold Down at h
    exact lockScope_locked_mem env db _ r hbegin hlock h
  | DownTo version =>
    obtain ⟨ms, hc⟩ := hcollected
    have h : DownTo env version fuel db = some r := hrun
    unfold DownTo at h
    rw [hc] at h
    exact lockScope_locked_mem env db _ r hbegin hlock h
  | Redo =>
    have h : Redo env db = some r := hrun
    unfold Redo at h
    exact lockScope_locked_mem env db _ r hbegin hlock h

theorem UpByOne_returns {DB : Type} (env : Env DB) (db : DB) (hbegin : env.begin = none)
    (hlock : env.lockErr = none)
    (hcollected : ∃ ms, env.CollectMigrations env.minVersion env.maxVersion = .ok ms) :
    ∃ r, UpByOne env db = some r := by
  obtain ⟨ms, hc⟩ := hcollected
  rw [UpByOne_eq_loop env ms db hc, lockScope_locked env db _ hbegin hlock]
  exact ⟨_, rfl⟩

theorem Down_returns {DB : Type} (env : Env DB) (db : DB) (hbegin : env.begin = none)
    (hlock : env.lockErr = none) : ∃ r, Down env db = some r := by
  unfold Down
  rw [lockScope_locked env db _ hbegin hlock]
  cases hv : env.GetDBVersion db with
  | error e => exact ⟨_, rfl⟩
  | ok c =>
    cases hc : env.CollectMigrations env.minVersion env.maxVersion with
    | error e => simp only [hc]; exact ⟨_, rfl⟩
    | ok ms =>
      cases hcur : Migrations.Current ms c with
      | error e => simp only [hc, hcur]; exact ⟨_, rfl⟩
      | ok m => simp only [hc, hcur]; exact ⟨_, rfl⟩

theorem Redo_returns {DB : Type} (env : Env DB) (db : DB) (hbegin : env.begin = none)
    (hlock : env.lockErr = none) : ∃ r, Redo env db = some r := by
  unfold Redo
  rw [lockScope_locked env db _ hbegin hlock]
  cases hv : env.GetDBVersion db with
  | error e => exact ⟨_, rfl⟩
  | ok c =>
    cases hc : env.CollectMigrations env.minVersion env.maxVersion with
    | error e => simp only [hc]; exact ⟨_, rfl⟩
    | ok ms =>
      cases hcur : Migrations.Current ms c with
      | error e => simp only [hc, hcur]; exact ⟨_, rfl⟩
      | ok m =>
        cases hd : m.Down db with
        | mk e1 db1 =>
          cases e1 with
          | some e => simp only [hc, hcur, hd]; exact ⟨_, rfl⟩
          | none => simp only [hc, hcur, hd]; exact ⟨_, rfl⟩

theorem Next_none_above {DB : Type} (ms : Migrations DB) (c : Int)
    (h : ∀ m ∈ ms, m.Version ≤ c) : Migrations.Next ms c = .error .ErrNoNextVersion := by
  unfold Migrations.Next
  split
  · rename_i m hm
    have hp := List.find?_some hm
    have hle := h m (List.mem_of_find?_eq_some hm)
    simp only [decide_eq_true_eq] at hp
    omega
  · rfl

theorem Current_unknown {DB : Type} (ms : Migrations DB) (v : Int)
    (h : ∀ m ∈ ms, m.Version ≠ v) : Migrations.Current ms v = .error .ErrNoCurrentVersion := by
  unfold Migrations.Current
  split
  · rename_i m hm
    have hp := List.find?_some hm
    have hne := h m (List.mem_of_find?_eq_some hm)
    simp only [decide_eq_true_eq] at hp
    exact absurd hp hne
  · rfl

/-! ## Lemmas on sorted collections -/

theorem Next_of_split {DB : Type} (done rest : List (Migration DB)) (m : Migration DB)
    (c : Int) (hsorted : (done ++ m :: rest).Pairwise (fun a b => a.Version < b.Version))
    (hdone : ∀ x ∈ done, x.Version ≤ c) (hm : c < m.Version) :
    Migrations.Next (done ++ m :: rest) c = .ok m := by
  have hrest : ∀ x ∈ rest, m.Version < x.Version := by
    have h2 := (List.pairwise_append.mp hsorted).2.1
    exact (List.pairwise_cons.mp h2).1
  unfold Migrations.Next
  have hfind : (done ++ m :: rest).find? (fun x => decide (c < x.Version ∧
      ∀ m' ∈ done ++ m :: rest, c < m'.Version → x.Version ≤ m'.Version)) = some m := by
    rw [List.find?_append]
    have h1 : done.find? (fun x => decide (c < x.Version ∧
        ∀ m' ∈ done ++ m :: rest, c < m'.Version → x.Version ≤ m'.Version)) = none := by
      rw [List.find?_eq_none]
      intro x hx
      have := hdone x hx
      simp only [decide_eq_true_eq, not_and]
      intro hlt
      omega
    rw [h1]
    simp only [Option.none_or]
    apply List.find?_cons_of_pos
    simp only [decide_eq_true_eq]
    refine ⟨hm, ?_⟩
    intro m' hm' hc
    rcases List.mem_append.mp hm' with h | h
    · have := hdone m' h
      omega
    · rcases List.mem_cons.mp h with h | h
      · rw [h]
      · exact Int.le_of_lt (hrest m' h)
  rw [hfind]

theorem Current_of_split {DB : Type} (pre post : List (Migration DB)) (m : Migration DB)
    (hsorted : (pre ++ m :: post).Pairwise (fun a b => a.Version < b.Version)) :
    Migrations.Current (pre ++ m :: post) m.Version = .ok m := by
  have hpre : ∀ x ∈ pre, x.Version < m.Version := by
    intro x hx
    exact (List.pairwise_append.mp hsorted).2.2 x hx m (List.mem_cons_self m post)
  unfold Migrations.Current
  have hfind : (pre ++ m :: post).find? (fun x => decide (x.Version = m.Version)) = some m := by
    rw [List.find?_append]
    have h1 : pre.find? (fun x => decide (x.Version = m.Version)) = none := by
      rw [List.find?_eq_none]
      intro x hx
      have := hpre x hx
      simp only [decide_eq_true_eq]
      omega
    rw [h1]
    simp only [Option.none_or]
    apply List.find?_cons_of_pos
    simp
  rw [hfind]

/-- A sorted collection splits at `c` into the units up to `c` and those above. -/
theorem sorted_split_at {DB : Type} (c : Int) :
    ∀ ms : List (Migration DB), ms.Pairwise (fun a b => a.Version < b.Version) →
      ∃ done pending, ms = done ++ pending ∧ (∀ x ∈ done, x.Version ≤ c) ∧
        (∀ x ∈ pending, c < x.Version) ∧
        ms.filter (fun m => decide (c < m.Version)) = pending := by
  intro ms
  induction ms with
  | nil => intro _; exact ⟨[], [], rfl, by simp, by simp, rfl⟩
  | cons a l ih =>
    intro hs
    have hl := (List.pairwise_cons.mp hs).2
    have ha := (List.pairwise_cons.mp hs).1
    by_cases hac : a.Version ≤ c
    · obtain ⟨done, pending, h1, h2, h3, h4⟩ := ih hl
      refine ⟨a :: done, pending, by rw [h1]; rfl, ?_, h3, ?_⟩
      · intro x hx
        rcases List.mem_cons.mp hx with h | h
        · rw [h]; exact hac
        · exact h2 x h
      · have : ¬ c < a.Version := by omega
        simp only [List.filter_cons, this, decide_False]
        exact h4
    · have hall : ∀ x ∈ a :: l, c < x.Version := by
        intro x hx
        rcases List.mem_cons.mp hx with h | h
        · rw [h]; omega
        · have := ha x h
          omega
      refine ⟨[], a :: l, rfl, by simp, hall, ?_⟩
      rw [List.filter_eq_self]
      intro x hx
      simpa using hall x hx

theorem versionBefore_concat {DB : Type} (l : List (Migration DB)) (m : Migration DB) :
    versionBefore (l ++ [m]) = m.Version := by
  simp [versionBefore, List.getLast?_concat]

theorem upIterate_stop {DB : Type} (env : Env DB) (ms : Migrations DB) (n : Nat) (db : DB)
    (e : Err) (h : (UpTo.loop env ms db).err = some e) :
    UpTo.iterate env ms (n + 1) db =
      some (e, (UpTo.loop env ms db).db, (UpTo.loop env ms db).trace) := by
  simp only [UpTo.iterate, h]

theorem upIterate_continue {DB : Type} (env : Env DB) (ms : Migrations DB) (n : Nat) (db : DB)
    (h : (UpTo.loop env ms db).err = none) (e : Err) (db' : DB) (tr : List Event)
    (hrec : UpTo.iterate env ms n (UpTo.loop env ms db).db = some (e, db', tr)) :
    UpTo.iterate env ms (n + 1) db = some (e, db', (UpTo.loop env ms db).trace ++ tr) := by
  simp only [UpTo.iterate, h, hrec]

theorem downIterate_stop {DB : Type} (env : Env DB) (ms : Migrations DB) (t : Int) (n : Nat)
    (db : DB) (e : Err) (h : (DownTo.loop env ms t db).err = some e) :
    DownTo.iterate env ms t (n + 1) db =
      some (e, (DownTo.loop env ms t db).db, (DownTo.loop env ms t db).trace) := by
  simp only [DownTo.iterate, h]

theorem downIterate_continue {DB : Type} (env : Env DB) (ms : Migrations DB) (t : Int)
    (n : Nat) (db : DB) (h : (DownTo.loop env ms t db).err = none) (e : Err) (db' : DB)
    (tr : List Event)
    (hrec : DownTo.iterate env ms t n (DownTo.loop env ms t db).db = some (e, db', tr)) :
    DownTo.iterate env ms t (n + 1) db =
      some (e, db', (DownTo.loop env ms t db).trace ++ tr) := by
  simp only [DownTo.iterate, h, hrec]

/-- The loop of `UpTo` on a sorted collection, entered at current version `c`
with the units `pending` above `c` still to come, runs `upsInOrder pending`. -/
theorem upIterate_pending {DB : Type} (env : Env DB) (ms : Migrations DB)
    (hsorted : ms.Pairwise (fun a b => a.Version < b.Version))
    (hup : ∀ m ∈ ms, ∀ d, (m.Up d).1 = none → env.GetDBVersion (m.Up d).2 = .ok m.Version) :
    ∀ (pending done : List (Migration DB)) (c : Int) (db : DB) (fuel : Nat),
      ms = done ++ pending → (∀ x ∈ done, x.Version ≤ c) → (∀ x ∈ pending, c < x.Version) →
      env.GetDBVersion db = .ok c → pending.length + 1 ≤ fuel →
      ∃ e tr, UpTo.iterate env ms fuel db = some (e, (upsInOrder pending db).db, tr) ∧
        tr.filter Event.isAction = (upsInOrder pending db).trace ∧
        ((upsInOrder pending db).err = none → e = .ErrNoNextVersion) ∧
        (∀ x, (upsInOrder pending db).err = some x → e = x) := by
  intro pending
  induction pending with
  | nil =>
    intro done c db fuel hms hdone _ hc hfuel
    obtain ⟨n, rfl⟩ : ∃ n, fuel = n + 1 := ⟨fuel - 1, by omega⟩
    have hnext : Migrations.Next ms c = .error .ErrNoNextVersion := by
      apply Next_none_above
      intro m hm
      rw [hms, List.append_nil] at hm
      exact hdone m hm
    have hloop := upLoop_next_err env ms db c _ hc hnext
    refine ⟨.ErrNoNextVersion, [.getDBVersion], ?_, ?_, ?_, ?_⟩
    · rw [upIterate_stop env ms n db .ErrNoNextVersion (by rw [hloop]), hloop]
      rfl
    · simp [upsInOrder, Event.isAction]
    · intro _; rfl
    · intro x hx; simp [upsInOrder] at hx
  | cons m rest ih =>
    intro done c db fuel hms hdone hpending hc hfuel
    obtain ⟨n, rfl⟩ : ∃ n, fuel = n + 1 := ⟨fuel - 1, by omega⟩
    have hsorted' : (done ++ m :: rest).Pairwise (fun a b => a.Version < b.Version) := by
      rw [← hms]; exact hsorted
    have hmc : c < m.Version := hpending m (List.mem_cons_self m rest)
    have hnext : Migrations.Next ms c = .ok m := by
      rw [hms]; exact Next_of_split done rest m c hsorted' hdone hmc
    have hloop := upLoop_next_ok env ms db c m hc hnext
    cases hres : (m.Up db).1 with
    | some x =>
      refine ⟨x, [.getDBVersion, .up m.Version m.Source (some x)], ?_, ?_, ?_, ?_⟩
      · rw [upIterate_stop env ms n db x (by rw [hloop]; exact hres), hloop]
        simp [upsInOrder, hres]
      · simp [upsInOrder, hres, Event.isAction]
      · intro h; simp [upsInOrder, hres] at h
      · intro y hy
        simp [upsInOrder, hres] at hy
        exact hy
    | none =>
      have hmem : m ∈ ms := by rw [hms]; simp
      have hcur := hup m hmem db hres
      have hrest : ∀ x ∈ rest, m.Version < x.Version := by
        have h2 := (List.pairwise_append.mp hsorted').2.1
        exact (List.pairwise_cons.mp h2).1
      have hdone' : ∀ x ∈ done ++ [m], x.Version ≤ m.Version := by
        intro x hx
        rcases List.mem_append.mp hx with h | h
        · have := hdone x h
          omega
        · rw [List.mem_singleton.mp h]
      obtain ⟨e, tr, hit, htr, he1, he2⟩ :=
        ih (done ++ [m]) m.Version (m.Up db).2 n (by rw [hms]; simp) hdone' hrest hcur
          (by simp only [List.length_cons] at hfuel; omega)
      refine ⟨e, [.getDBVersion, .up m.Version m.Source none] ++ tr, ?_, ?_, ?_, ?_⟩
      · have hl : (UpTo.loop env ms db).err = none := by rw [hloop]; exact hres
        have hdb : (UpTo.loop env ms db).db = (m.Up db).2 := by rw [hloop]
        have htrace : (UpTo.loop env ms db).trace =
            [.getDBVersion, .up m.Version m.Source none] := by rw [hloop, hres]
        have hit' : UpTo.iterate env ms n (UpTo.loop env ms db).db =
            some (e, (upsInOrder rest (m.Up db).2).db, tr) := by rw [hdb]; exact hit
        rw [upIterate_continue env ms n db hl e _ tr hit', htrace]
        simp [upsInOrder, hres]
      · simp [upsInOrder, hres, Event.isAction]
        simpa [Event.isAction] using htr
      · intro h
        simp [upsInOrder, hres] at h
        exact he1 h
      · intro y hy
        simp [upsInOrder, hres] at hy
        exact he2 y hy

theorem downsInOrder_trace_mem {DB : Type} :
    ∀ (us : List (Migration DB)) (db : DB) (ev : Event), ev ∈ (downsInOrder us db).trace →
      ∃ m ∈ us, ∃ x, ev = .down m.Version m.Source x := by
  intro us
  induction us with
  | nil => intro db ev h; simp [downsInOrder] at h
  | cons m rest ih =>
    intro db ev h
    cases hres : (m.Down db).1 with
    | some x =>
      simp only [downsInOrder, hres, List.mem_singleton] at h
      exact ⟨m, List.mem_cons_self m rest, some x, h⟩
    | none =>
      simp only [downsInOrder, hres, List.mem_cons] at h
      rcases h with h | h
      · exact ⟨m, List.mem_cons_self m rest, none, h⟩
      · obtain ⟨m', hm', x, hx⟩ := ih _ ev h
        exact ⟨m', List.mem_cons_of_mem m hm', x, hx⟩

/-- The loop of `DownTo` on a sorted collection without a unit of version 0,
entered when the current version is that of the last unit of the initial
segment `l` (0 when `l` is empty), runs `downsInOrder` on the units of `l`
above the target, last first. -/
theorem downIterate_applied {DB : Type} (env : Env DB) (ms : Migrations DB) (t : Int)
    (hsorted : ms.Pairwise (fun a b => a.Version < b.Version))
    (hbase : ∀ m ∈ ms, m.Version ≠ 0)
    (hdown : ∀ pre m post, ms = pre ++ m :: post → ∀ d, (m.Down d).1 = none →
      env.GetDBVersion (m.Down d).2 = .ok (versionBefore pre)) :
    ∀ (n : Nat) (l post : List (Migration DB)) (db : DB) (fuel : Nat),
      l.length = n → ms = l ++ post → env.GetDBVersion db = .ok (versionBefore l) →
      l.length + 1 ≤ fuel →
      ∃ e tr, DownTo.iterate env ms t fuel db =
          some (e, (downsInOrder (l.filter fun m => decide (t < m.Version)).reverse db).db, tr) ∧
        tr.filter Event.isAction =
          (downsInOrder (l.filter fun m => decide (t < m.Version)).reverse db).trace ∧
        ((downsInOrder (l.filter fun m => decide (t < m.Version)).reverse db).err = none →
          e = .ErrNoNextVersion ∨ e = .ErrNoCurrentVersion) ∧
        (∀ x, (downsInOrder (l.filter fun m => decide (t < m.Version)).reverse db).err = some x →
          e = x) := by
  intro n
  induction n with
  | zero =>
    intro l post db fuel hlen hms hc hfuel
    have hl : l = [] := List.length_eq_zero.mp hlen
    subst hl
    obtain ⟨k, rfl⟩ : ∃ k, fuel = k + 1 := ⟨fuel - 1, by omega⟩
    have hcur : Migrations.Current ms 0 = .error .ErrNoCurrentVersion :=
      Current_unknown ms 0 hbase
    have hloop := downLoop_current_err env ms t db 0 _ hc hcur
    refine ⟨.ErrNoCurrentVersion, [.getDBVersion], ?_, ?_, ?_, ?_⟩
    · rw [downIterate_stop env ms t k db .ErrNoCurrentVersion (by rw [hloop]), hloop]
      rfl
    · simp [downsInOrder, Event.isAction]
    · intro _; exact Or.inr rfl
    · intro x hx; simp [downsInOrder] at hx
  | succ n ih =>
    intro l post db fuel hlen hms hc hfuel
    obtain ⟨k, rfl⟩ : ∃ k, fuel = k + 1 := ⟨fuel - 1, by omega⟩
    rcases List.eq_nil_or_concat l with hl | ⟨l', m, hl⟩
    · subst hl; simp at hlen
    rw [List.concat_eq_append] at hl
    subst hl
    rw [versionBefore_concat] at hc
    have hms' : ms = l' ++ m :: post := by rw [hms]; simp
    have hsorted' : (l' ++ m :: post).Pairwise (fun a b => a.Version < b.Version) := by
      rw [← hms']; exact hsorted
    have hpre : ∀ x ∈ l', x.Version < m.Version := by
      intro x hx
      exact (List.pairwise_append.mp hsorted').2.2 x hx m (List.mem_cons_self m post)
    have hcur : Migrations.Current ms m.Version = .ok m := by
      rw [hms']; exact Current_of_split l' post m hsorted'
    by_cases hle : m.Version ≤ t
    · have hloop := downLoop_at_target env ms t db m.Version m hc hcur hle
      have hfil : (l' ++ [m]).filter (fun m => decide (t < m.Version)) = [] := by
        rw [List.filter_eq_nil_iff]
        intro x hx
        simp only [decide_eq_true_eq]
        rcases List.mem_append.mp hx with h | h
        · have := hpre x h
          omega
        · rw [List.mem_singleton.mp h]; omega
      rw [hfil]
      refine ⟨.ErrNoNextVersion, [.getDBVersion], ?_, ?_, ?_, ?_⟩
      · rw [downIterate_stop env ms t k db .ErrNoNextVersion (by rw [hloop]), hloop]
        rfl
      · simp [downsInOrder, Event.isAction]
      · intro _; exact Or.inl rfl
      · intro x hx; simp [downsInOrder] at hx
    · have hloop := downLoop_above_target env ms t db m.Version m hc hcur hle
      have hfil : ((l' ++ [m]).filter (fun m => decide (t < m.Version))).reverse =
          m :: (l'.filter (fun m => decide (t < m.Version))).reverse := by
        have : decide (t < m.Version) = true := by simp; omega
        simp [List.filter_append, List.filter_cons, this]
      rw [hfil]
      cases hres : (m.Down db).1 with
      | some x =>
        refine ⟨x, [.getDBVersion, .down m.Version m.Source (some x)], ?_, ?_, ?_, ?_⟩
        · rw [downIterate_stop env ms t k db x (by rw [hloop]; exact hres), hloop]
          simp [downsInOrder, hres]
        · simp [downsInOrder, hres, Event.isAction]
        · intro h; simp [downsInOrder, hres] at h
        · intro y hy
          simp [downsInOrder, hres] at hy
          exact hy
      | none =>
        have hnext := hdown l' m post hms' db hres
        have hlen' : l'.length = n := by simpa using hlen
        obtain ⟨e, tr, hit, htr, he1, he2⟩ :=
          ih l' (m :: post) (m.Down db).2 k hlen' hms' hnext
            (by simp only [List.length_append, List.length_singleton] at hfuel; omega)
        refine ⟨e, [.getDBVersion, .down m.Version m.Source none] ++ tr, ?_, ?_, ?_, ?_⟩
        · have hl : (DownTo.loop env ms t db).err = none := by rw [hloop]; exact hres
          have hdb : (DownTo.loop env ms t db).db = (m.Down db).2 := by rw [hloop]
          have htrace : (DownTo.loop env ms t db).trace =
              [.getDBVersion, .down m.Version m.Source none] := by rw [hloop, hres]
          have hit' : DownTo.iterate env ms t k (DownTo.loop env ms t db).db =
              some (e, (downsInOrder (l'.filter fun m => decide (t < m.Version)).reverse
                (m.Down db).2).db, tr) := by rw [hdb]; exact hit
          rw [downIterate_continue env ms t k db hl e _ tr hit', htrace]
          simp [downsInOrder, hres]
        · simp [downsInOrder, hres, Event.isAction]
          simpa [Event.isAction] using htr
        · intro h
          simp [downsInOrder, hres] at h
          exact he1 h
        · intro y hy
          simp [downsInOrder, hres] at hy
          exact he2 y hy

/-- On the collection whose only unit has version 0, `DownTo(-1)` from current
version 0 reverts that unit over and over: its loop never ends. -/
theorem downIterate_units0_loops :
    ∀ fuel : Nat, DownTo.iterate (envOf idleServer units0) units0 (-1) fuel 0 = none := by
  intro fuel
  induction fuel with
  | zero => rfl
  | succ n ih =>
    have hloop : DownTo.loop (envOf idleServer units0) units0 (-1) 0 =
        ⟨none, 0, [.getDBVersion, .down 0 "0_base.sql" none]⟩ := rfl
    simp only [DownTo.iterate, hloop, ih]

/-- In a collection whose versions are pairwise different, `Current` at the
version of a unit of the collection finds that unit. -/
theorem Current_of_mem_unique {DB : Type} (ms : Migrations DB) (u : Migration DB)
    (hu : u ∈ ms) (huniq : ms.Pairwise (fun a b => a.Version ≠ b.Version)) :
    Migrations.Current ms u.Version = .ok u := by
  obtain ⟨pre, post, hms⟩ := List.append_of_mem hu
  subst hms
  have hpre : ∀ x ∈ pre, x.Version ≠ u.Version := by
    intro x hx
    exact (List.pairwise_append.mp huniq).2.2 x hx u (List.mem_cons_self u post)
  unfold Migrations.Current
  have hfind : (pre ++ u :: post).find? (fun x => decide (x.Version = u.Version)) = some u := by
    rw [List.find?_append]
    have h1 : pre.find? (fun x => decide (x.Version = u.Version)) = none := by
      rw [List.find?_eq_none]
      intro x hx
      simpa using hpre x hx
    rw [h1]
    simp only [Option.none_or]
    apply List.find?_cons_of_pos
    simp
  rw [hfind]

/-! ## Claims on dialect.go -/

/-- C5: when the lock id is derived and no `GET_LOCK` query fails,
`MySQLDialect.lock` and `TiDBDialect.lock` (total functions: their loops
terminate) return success at the first attempt that reports the lock obtained,
having sent exactly the attempts up to it; when every attempt within the bound
times out they stop after `maxRetry + 1` attempts (the initial one and
`maxRetry` retries) with the "fail get lock" error; in every case they send at
most `maxRetry + 1` attempts, and they succeed if and only if one of the
attempts `0 .. maxRetry` reports the lock obtained. -/
theorem lock_retry_bounded (maxRetry : Nat) (s : LockServer) (aid : Int)
    (haid : s.aid = .ok aid) (hq : ∀ i, ∃ b, s.getLock i = .ok b) :
    (∀ i, i ≤ maxRetry → s.getLock i = .ok true → (∀ j, j < i → s.getLock j = .ok false) →
      MySQLDialect.lock maxRetry s = ⟨none, i + 1⟩ ∧
      TiDBDialect.lock maxRetry s = ⟨none, i + 1⟩) ∧
    ((∀ j, j ≤ maxRetry → s.getLock j = .ok false) →
      MySQLDialect.lock maxRetry s =
        ⟨some (.errorf "fail get lock after %d retries" [.int maxRetry]), maxRetry + 1⟩ ∧
      TiDBDialect.lock maxRetry s =
        ⟨some (.errorf "fail get lock after %d retries" [.int ((maxRetry + 1 : Nat) : Int)]),
          maxRetry + 1⟩) ∧
    (MySQLDialect.lock maxRetry s).attempts ≤ maxRetry + 1 ∧
    (TiDBDialect.lock maxRetry s).attempts ≤ maxRetry + 1 ∧
    ((MySQLDialect.lock maxRetry s).err = none ↔
      ∃ i, i ≤ maxRetry ∧ s.getLock i = .ok true) ∧
    ((TiDBDialect.lock maxRetry s).err = none ↔
      ∃ i, i ≤ maxRetry ∧ s.getLock i = .ok true) := by
  have hM : MySQLDialect.lock maxRetry s = MySQLDialect.lockLoop maxRetry s.getLock 0 := by
    simp [MySQLDialect.lock, haid]
  have hT : TiDBDialect.lock maxRetry s = TiDBDialect.lockLoop maxRetry s.getLock 0 := by
    simp [TiDBDialect.lock, haid]
  have hfirst : ∀ i, i ≤ maxRetry → s.getLock i = .ok true →
      (∀ j, j < i → s.getLock j = .ok false) →
      MySQLDialect.lock maxRetry s = ⟨none, i + 1⟩ ∧
      TiDBDialect.lock maxRetry s = ⟨none, i + 1⟩ := by
    intro i hi htrue hfalse
    rw [hM, hT]
    exact ⟨mysql_lockLoop_obtained maxRetry s.getLock i hi htrue i 0 rfl (Nat.zero_le i)
        (fun j _ hj => hfalse j hj),
      tidb_lockLoop_obtained maxRetry s.getLock i hi htrue i 0 rfl (Nat.zero_le i)
        (fun j _ hj => hfalse j hj)⟩
  have hall : (∀ j, j ≤ maxRetry → s.getLock j = .ok false) →
      MySQLDialect.lock maxRetry s =
        ⟨some (.errorf "fail get lock after %d retries" [.int maxRetry]), maxRetry + 1⟩ ∧
      TiDBDialect.lock maxRetry s =
        ⟨some (.errorf "fail get lock after %d retries" [.int ((maxRetry + 1 : Nat) : Int)]),
          maxRetry + 1⟩ := by
    intro hfalse
    rw [hM, hT]
    exact ⟨mysql_lockLoop_exhausted maxRetry s.getLock hfalse (maxRetry + 1) 0 rfl
        (Nat.zero_le _),
      tidb_lockLoop_exhausted maxRetry s.getLock hfalse (maxRetry + 1) 0 rfl
        (Nat.zero_le _)⟩
  refine ⟨hfirst, hall, ?_, ?_, ?_, ?_⟩
  · rcases getLock_first_or_none maxRetry s.getLock hq with ⟨i, hi, ht, hf⟩ | hf
    · rw [(hfirst i hi ht hf).1]; exact Nat.succ_le_succ hi
    · rw [(hall hf).1]
  · rcases getLock_first_or_none maxRetry s.getLock hq with ⟨i, hi, ht, hf⟩ | hf
    · rw [(hfirst i hi ht hf).2]; exact Nat.succ_le_succ hi
    · rw [(hall hf).2]
  · rcases getLock_first_or_none maxRetry s.getLock hq with ⟨i, hi, ht, hf⟩ | hf
    · rw [(hfirst i hi ht hf).1]
      exact ⟨fun _ => ⟨i, hi, ht⟩, fun _ => rfl⟩
    · rw [(hall hf).1]
      constructor
      · intro h; cases h
      · rintro ⟨i, hi, ht⟩
        rw [hf i hi] at ht
        cases ht
  · rcases getLock_first_or_none maxRetry s.getLock hq with ⟨i, hi, ht, hf⟩ | hf
    · rw [(hfirst i hi ht hf).2]
      exact ⟨fun _ => ⟨i, hi, ht⟩, fun _ => rfl⟩
    · rw [(hall hf).2]
      constructor
      · intro h; cases h
      · rintro ⟨i, hi, ht⟩
        rw [hf i hi] at ht
        cases ht

/-- C5, at a concrete input: with `maxRetry = 5` on `busyServer` both dialects
obtain the lock at the third attempt. -/
theorem lock_retry_bounded_witness :
    MySQLDialect.lock 5 busyServer = ⟨none, 3⟩ ∧ TiDBDialect.lock 5 busyServer = ⟨none, 3⟩ :=
  (lock_retry_bounded 5 busyServer 42 rfl (fun i => ⟨decide (2 ≤ i), rfl⟩)).1 2
    (by decide) rfl
    (fun j hj => by
      have h : decide (2 ≤ j) = false := decide_eq_false (by omega)
      show Except.ok (decide (2 ≤ j)) = Except.ok false
      rw [h])

/-- C6: `SetDialect(d)` returns the unknown-dialect error exactly when `d` is
none of "postgres", "mysql", "tidb" (and returns no other error); for each of the
three names it returns no error and `GetDialect` then yields that backend; the
name "oracle" is refused; and no call to the database is issued. -/
theorem SetDialect_unknown_iff (d : String) (dialect : SQLDialect) :
    ((SetDialect d dialect).err = some (.errorf "%q: unknown dialect" [.str d]) ↔
      (d ≠ "postgres" ∧ d ≠ "mysql" ∧ d ≠ "tidb")) ∧
    ((SetDialect d dialect).err = none ↔ (d = "postgres" ∨ d = "mysql" ∨ d = "tidb")) ∧
    ((SetDialect "postgres" dialect).err = none ∧
      GetDialect (SetDialect "postgres" dialect).dialect = .PostgresDialect) ∧
    ((SetDialect "mysql" dialect).err = none ∧
      GetDialect (SetDialect "mysql" dialect).dialect = .MySQLDialect) ∧
    ((SetDialect "tidb" dialect).err = none ∧
      GetDialect (SetDialect "tidb" dialect).dialect = .TiDBDialect false) ∧
    (SetDialect "oracle" dialect).err = some (.errorf "%q: unknown dialect" [.str "oracle"]) ∧
    (SetDialect d dialect).calls = [] := by
  refine ⟨?_, ?_, ⟨by simp [SetDialect], by simp [SetDialect, GetDialect]⟩,
    ⟨by simp [SetDialect], by simp [SetDialect, GetDialect]⟩,
    ⟨by simp [SetDialect], by simp [SetDialect, GetDialect]⟩, by simp [SetDialect], ?_⟩
  · unfold SetDialect
    by_cases h1 : d = "postgres"
    · simp [h1]
    · by_cases h2 : d = "mysql"
      · simp [h2]
      · by_cases h3 : d = "tidb"
        · simp [h3]
        · simp [h1, h2, h3]
  · unfold SetDialect
    by_cases h1 : d = "postgres"
    · simp [h1]
    · by_cases h2 : d = "mysql"
      · simp [h2]
      · by_cases h3 : d = "tidb"
        · simp [h3]
        · simp [h1, h2, h3]
  · unfold SetDialect
    split_ifs <;> rfl



/-! ## Claims on the runner -/

/-- C2: for each of Up, UpTo, UpByOne, Down, DownTo and Redo, when the
transaction is begun, the dialect's lock call succeeds and the collection that
the operation reads before it is obtained, every run that returns has the trace
`begin, lock`, then steps (version reads and up/down actions, none of them a
lock or unlock call), then `unlock, commit`: the lock is taken, once and before
the first step, and unlock is called once, after the last action, whatever the
way out (success, a sentinel, a version-store or collection error, a failing
action). UpByOne, Down and Redo, which have no loop, always return. -/
theorem lock_once_unlock_once {DB : Type} (op : Op) (env : Env DB) (fuel : Nat) (db : DB)
    (hbegin : env.begin = none) (hlock : env.lockErr = none)
    (hcollected : op.collected env) :
    (∀ r, op.run env fuel db = some r →
      ∃ steps, r.trace = [.begin, .lock] ++ steps ++ [.unlock, .commit] ∧
        (∀ x ∈ steps, x.isStep = true) ∧
        r.trace.count .lock = 1 ∧ r.trace.count .unlock = 1) ∧
    ((op = .UpByOne ∨ op = .Down ∨ op = .Redo) → ∃ r, op.run env fuel db = some r) := by
  constructor
  · intro r hrun
    have hcalled := run_takes_lock op env fuel db r hbegin hlock hcollected hrun
    rcases Op.run_cases op env fuel db r hrun with
      ⟨e, hr⟩ | ⟨e, _, hr⟩ | ⟨e, _, hl, _⟩ | ⟨_, _, r0, hr, hsteps, _⟩
    · subst hr; simp at hcalled
    · subst hr; simp at hcalled
    · rw [hlock] at hl; cases hl
    · subst hr
      refine ⟨r0.trace, rfl, hsteps, ?_, ?_⟩
      · have h0 : r0.trace.count Event.lock = 0 := by
          rw [List.count_eq_zero]
          intro hmem
          have := hsteps _ hmem
          simp [Event.isStep] at this
        simp [List.count_append, h0]
      · have h0 : r0.trace.count Event.unlock = 0 := by
          rw [List.count_eq_zero]
          intro hmem
          have := hsteps _ hmem
          simp [Event.isStep] at this
        simp [List.count_append, h0]
  · rintro (h | h | h)
    · subst h; exact UpByOne_returns env db hbegin hlock hcollected
    · subst h; exact Down_returns env db hbegin hlock
    · subst h; exact Redo_returns env db hbegin hlock

/-- C2, at a concrete input: `Up` over the units 1, 2 (broken), 3 from version
0; the way out is the failing up action of unit 2. -/
theorem lock_once_unlock_once_witness :
    ∃ steps,
      [Event.begin, .lock, .getDBVersion, .up 1 "1_a.sql" none, .getDBVersion,
        .up 2 "2_b.sql" (some (.other "syntax error")), .unlock, .commit] =
        [.begin, .lock] ++ steps ++ [.unlock, .commit] ∧
      (∀ x ∈ steps, x.isStep = true) ∧
      [Event.begin, .lock, .getDBVersion, .up 1 "1_a.sql" none, .getDBVersion,
        .up 2 "2_b.sql" (some (.other "syntax error")), .unlock, .commit].count .lock = 1 ∧
      [Event.begin, .lock, .getDBVersion, .up 1 "1_a.sql" none, .getDBVersion,
        .up 2 "2_b.sql" (some (.other "syntax error")), .unlock, .commit].count .unlock = 1 :=
  (lock_once_unlock_once .Up (envOf idleServer units1b3) 4 0 rfl rfl ⟨units1b3, rfl⟩).1
    ⟨some (.other "syntax error"), 1,
      [.begin, .lock, .getDBVersion, .up 1 "1_a.sql" none, .getDBVersion,
        .up 2 "2_b.sql" (some (.other "syntax error")), .unlock, .commit]⟩
    rfl

/-- C3, as the code has it: when an up or down action of a run of Up, UpTo,
UpByOne, Down, DownTo or Redo fails with an execution error (an error that is
not a loop-termination sentinel), the operation returns that error, and the
transaction opened for the lock is not rolled back: the run ends with the
deferred `unlock` followed by `tx.Commit()`. -/
theorem action_error_returned_then_commit {DB : Type} (op : Op) (env : Env DB) (fuel : Nat)
    (db : DB) (r : Run DB) (e : Err) (hrun : op.run env fuel db = some r)
    (hfail : failedWith r.trace e) (hexec : e.isSentinel = false) :
    r.err = some e ∧ Event.rollback ∉ r.trace ∧
      ∃ steps, r.trace = [.begin, .lock] ++ steps ++ [.unlock, .commit] := by
  rcases Op.run_cases op env fuel db r hrun with
    ⟨e', hr⟩ | ⟨e', _, hr⟩ | ⟨e', _, _, hr⟩ | ⟨_, _, r0, hr, hsteps, hsurf⟩
  · subst hr; obtain ⟨v, s, h | h⟩ := hfail <;> simp at h
  · subst hr; obtain ⟨v, s, h | h⟩ := hfail <;> simp at h
  · subst hr; obtain ⟨v, s, h | h⟩ := hfail <;> simp at h
  · subst hr
    have hf0 : failedWith r0.trace e := by
      rcases failedWith_append.mp hfail with h | h
      · rcases failedWith_append.mp h with h | h
        · obtain ⟨v, s, h | h⟩ := h <;> simp at h
        · exact h
      · obtain ⟨v, s, h | h⟩ := h <;> simp at h
    refine ⟨hsurf e hf0 hexec, ?_, r0.trace, rfl⟩
    intro hmem
    simp only [List.mem_append, List.mem_cons, List.mem_singleton, List.not_mem_nil,
      or_false] at hmem
    rcases hmem with (h | h) | h
    · rcases h with h | h <;> cases h
    · have := hsteps _ h
      simp [Event.isStep] at this
    · rcases h with h | h <;> cases h

/-- C3, at a concrete input: `UpByOne` from version 1 over the units 1, 2
(broken), 3. -/
theorem action_error_returned_then_commit_witness :
    (some (Err.other "syntax error") = some (Err.other "syntax error")) ∧
    Event.rollback ∉ [Event.begin, .lock, .getDBVersion,
      .up 2 "2_b.sql" (some (.other "syntax error")), .unlock, .commit] ∧
    ∃ steps, [Event.begin, .lock, .getDBVersion,
      .up 2 "2_b.sql" (some (.other "syntax error")), .unlock, .commit] =
        [.begin, .lock] ++ steps ++ [.unlock, .commit] :=
  action_error_returned_then_commit .UpByOne (envOf idleServer units1b3) 0 1
    ⟨some (.other "syntax error"), 1,
      [.begin, .lock, .getDBVersion, .up 2 "2_b.sql" (some (.other "syntax error")),
        .unlock, .commit]⟩
    (.other "syntax error") rfl ⟨2, "2_b.sql", Or.inl (by decide)⟩ rfl

/-- C3 as stated fails: `UpByOne` from version 1 over the units 1, 2 (broken),
3 runs the up action of unit 2, which fails; the error is returned, and the
transaction is committed (`tx.Commit()` is the last call), never rolled back. -/
theorem failing_action_is_committed_not_rolled_back :
    ∃ r, UpByOne (envOf idleServer units1b3) 1 = some r ∧
      r.err = some (.other "syntax error") ∧
      r.trace = [.begin, .lock, .getDBVersion,
        .up 2 "2_b.sql" (some (.other "syntax error")), .unlock, .commit] ∧
      Event.commit ∈ r.trace ∧ Event.rollback ∉ r.trace :=
  ⟨_, rfl, rfl, rfl, by decide, by decide⟩

/-- C10: for each of Up, UpTo, UpByOne, Down, DownTo and Redo, when the
transaction is begun, the collection that the operation reads before it is
obtained, and the dialect's lock call returns the error `e`, the operation
returns `e` (whatever the fuel), with the database untouched and with
`begin, lock` as its whole trace: no `GetDBVersion` call, no up or down action
and no `unlock` call. -/
theorem lock_error_aborts {DB : Type} (op : Op) (env : Env DB) (fuel : Nat) (db : DB)
    (e : Err) (hbegin : env.begin = none) (hcollected : op.collected env)
    (hlock : env.lockErr = some e) :
    op.run env fuel db = some ⟨some e, db, [.begin, .lock]⟩ ∧
    Event.getDBVersion ∉ [Event.begin, Event.lock] ∧
    Event.unlock ∉ [Event.begin, Event.lock] ∧
    ∀ x ∈ [Event.begin, Event.lock], x.isAction = false := by
  refine ⟨?_, by simp, by simp, by simp [Event.isAction]⟩
  cases op with
  | Up =>
    obtain ⟨ms, hc⟩ := hcollected
    show UpTo env env.maxVersion fuel db = _
    unfold UpTo
    rw [hc]
    exact lockScope_lock_refused env db _ e hbegin hlock
  | UpTo version =>
    obtain ⟨ms, hc⟩ := hcollected
    show UpTo env version fuel db = _
    unfold UpTo
    rw [hc]
    exact lockScope_lock_refused env db _ e hbegin hlock
  | UpByOne =>
    obtain ⟨ms, hc⟩ := hcollected
    show UpByOne env db = _
    unfold UpByOne
    rw [hc]
    exact lockScope_lock_refused env db _ e hbegin hlock
  | Down =>
    show Down env db = _
    unfold Down
    exact lockScope_lock_refused env db _ e hbegin hlock
  | DownTo version =>
    obtain ⟨ms, hc⟩ := hcollected
    show DownTo env version fuel db = _
    unfold DownTo
    rw [hc]
    exact lockScope_lock_refused env db _ e hbegin hlock
  | Redo =>
    show Redo env db = _
    unfold Redo
    exact lockScope_lock_refused env db _ e hbegin hlock

/-- C10, at a concrete input: `DownTo(0)` from version 2 over the units 1, 2, 3
on a server that refuses the lock statement returns the lock's error right
after the lock call. -/
theorem lock_error_aborts_witness :
    Op.run (.DownTo 0) (envOf downServer units123) 4 2 =
      some ⟨some (.errorf "try lock failed, err: %s" [.str "connection refused"]), 2,
        [.begin, .lock]⟩ :=
  (lock_error_aborts (.DownTo 0) (envOf downServer units123) 4 2
    (.errorf "try lock failed, err: %s" [.str "connection refused"]) rfl ⟨units123, rfl⟩
    rfl).1

/-- C4: in a run that reaches the `for`, with `e` the error that the last call
of `loop()` returned: `UpTo` (hence `Up`, which is `UpTo` at `maxVersion`)
returns success exactly when `e` is `ErrNoNextVersion`, never returns
`ErrNoNextVersion`, and returns every other `e` as it is; `DownTo` returns
success exactly when `e` is `ErrNoNextVersion` or `ErrNoCurrentVersion`, never
returns either, and returns every other `e` as it is. -/
theorem sentinels_become_success {DB : Type} (env : Env DB) (ms : Migrations DB) (fuel : Nat)
    (db : DB) (hbegin : env.begin = none) (hlock : env.lockErr = none) :
    (∀ version e db' tr, env.CollectMigrations env.minVersion version = .ok ms →
      UpTo.iterate env ms fuel db = some (e, db', tr) →
      ∃ r, UpTo env version fuel db = some r ∧
        (r.err = none ↔ e = .ErrNoNextVersion) ∧
        r.err ≠ some .ErrNoNextVersion ∧
        (e ≠ .ErrNoNextVersion → r.err = some e)) ∧
    Up env fuel db = UpTo env env.maxVersion fuel db ∧
    (∀ version e db' tr, env.CollectMigrations env.minVersion env.maxVersion = .ok ms →
      DownTo.iterate env ms version fuel db = some (e, db', tr) →
      ∃ r, DownTo env version fuel db = some r ∧
        (r.err = none ↔ (e = .ErrNoNextVersion ∨ e = .ErrNoCurrentVersion)) ∧
        r.err ≠ some .ErrNoNextVersion ∧ r.err ≠ some .ErrNoCurrentVersion ∧
        (e ≠ .ErrNoNextVersion → e ≠ .ErrNoCurrentVersion → r.err = some e)) := by
  refine ⟨?_, rfl, ?_⟩
  · intro version e db' tr hc hit
    refine ⟨⟨if e = .ErrNoNextVersion then none else some e, db',
      [.begin, .lock] ++ tr ++ [.unlock, .commit]⟩, ?_, ?_, ?_, ?_⟩
    · unfold UpTo
      rw [hc]
      simp only []
      rw [lockScope_locked env db _ hbegin hlock, hit]
      rfl
    · by_cases he : e = .ErrNoNextVersion <;> simp [he]
    · by_cases he : e = .ErrNoNextVersion <;> simp [he]
    · intro he; simp [he]
  · intro version e db' tr hc hit
    refine ⟨⟨if e = .ErrNoNextVersion ∨ e = .ErrNoCurrentVersion then none else some e, db',
      [.begin, .lock] ++ tr ++ [.unlock, .commit]⟩, ?_, ?_, ?_, ?_, ?_⟩
    · unfold DownTo
      rw [hc]
      simp only []
      rw [lockScope_locked env db _ hbegin hlock, hit]
      rfl
    · by_cases he : e = .ErrNoNextVersion ∨ e = .ErrNoCurrentVersion <;> simp [he]
    · by_cases he : e = .ErrNoNextVersion ∨ e = .ErrNoCurrentVersion
      · simp [he]
      · simp only [he, if_false]
        intro h
        exact he (Or.inl (Option.some.inj h))
    · by_cases he : e = .ErrNoNextVersion ∨ e = .ErrNoCurrentVersion
      · simp [he]
      · simp only [he, if_false]
        intro h
        exact he (Or.inr (Option.some.inj h))
    · intro h1 h2
      have he : ¬ (e = .ErrNoNextVersion ∨ e = .ErrNoCurrentVersion) := by
        rintro (h | h)
        · exact h1 h
        · exact h2 h
      simp [he]

/-- C4, at a concrete input: `Up` over the units 1, 2, 3 from version 0; the
loop ends with `ErrNoNextVersion` after the third unit and `Up` returns
success. -/
theorem sentinels_become_success_witness :
    ∃ r, UpTo (envOf idleServer units123) 9223372036854775807 4 0 = some r ∧
      (r.err = none ↔ Err.ErrNoNextVersion = .ErrNoNextVersion) ∧
      r.err ≠ some .ErrNoNextVersion ∧
      (Err.ErrNoNextVersion ≠ .ErrNoNextVersion → r.err = some .ErrNoNextVersion) :=
  (sentinels_become_success (envOf idleServer units123) units123 4 0 rfl rfl).1
    9223372036854775807 .ErrNoNextVersion 3
    [.getDBVersion, .up 1 "1_a.sql" none, .getDBVersion, .up 2 "2_b.sql" none,
      .getDBVersion, .up 3 "3_c.sql" none, .getDBVersion]
    rfl rfl

/-- C7: on a collection of units of positive version (0 stands for "no
migration applied" and is the version of no unit), when the lock is acquired
and the current version `v` is 0 or is not the version of any unit in the
collection, `Down` returns the error "no migration v" and executes no down
action: it reads the version and then only runs the deferred `unlock` and
`Commit`. -/
theorem Down_unknown_version {DB : Type} (env : Env DB) (ms : Migrations DB) (db : DB)
    (v : Int) (hbegin : env.begin = none) (hlock : env.lockErr = none)
    (hv : env.GetDBVersion db = .ok v)
    (hcollect : env.CollectMigrations env.minVersion env.maxVersion = .ok ms)
    (hpos : ∀ m ∈ ms, 0 < m.Version)
    (hunknown : v = 0 ∨ ∀ m ∈ ms, m.Version ≠ v) :
    Down env db = some ⟨some (.errorf "no migration %v" [.int v]), db,
      [.begin, .lock, .getDBVersion, .unlock, .commit]⟩ := by
  have hno : ∀ m ∈ ms, m.Version ≠ v := by
    rcases hunknown with h | h
    · intro m hm
      have := hpos m hm
      omega
    · exact h
  unfold Down
  rw [lockScope_locked env db _ hbegin hlock]
  simp only [hv, hcollect, Current_unknown ms v hno]
  rfl

/-- C7, at a concrete input: `Down` at version 0 over the units 1, 2, 3. -/
theorem Down_unknown_version_witness :
    Down (envOf idleServer units123) 0 =
      some ⟨some (.errorf "no migration %v" [.int 0]), 0,
        [.begin, .lock, .getDBVersion, .unlock, .commit]⟩ :=
  Down_unknown_version (envOf idleServer units123) units123 0 0 rfl rfl rfl rfl (by decide)
    (Or.inl rfl)

/-- C8: `UpByOne`, once the lock is held, is one call of the closure `loop` of
`UpTo`: same error, same database, same calls. Its up actions are the one of
`Next(current)` when there is a next unit and none otherwise; and when no unit
has a version above the current one (the current version is the latest), it
executes no up action and returns `ErrNoNextVersion`. -/
theorem UpByOne_single_iteration {DB : Type} (env : Env DB) (ms : Migrations DB) (db : DB)
    (c : Int) (hcollect : env.CollectMigrations env.minVersion env.maxVersion = .ok ms)
    (hbegin : env.begin = none) (hlock : env.lockErr = none)
    (hv : env.GetDBVersion db = .ok c) :
    ∃ r, UpByOne env db = some r ∧
      r.err = (UpTo.loop env ms db).err ∧ r.db = (UpTo.loop env ms db).db ∧
      r.trace = [.begin, .lock] ++ (UpTo.loop env ms db).trace ++ [.unlock, .commit] ∧
      r.trace.filter Event.isAction =
        (match Migrations.Next ms c with
          | .ok next => [.up next.Version next.Source (next.Up db).1]
          | .error _ => []) ∧
      ((∀ m ∈ ms, m.Version ≤ c) →
        r.err = some .ErrNoNextVersion ∧ r.trace.filter Event.isAction = []) := by
  refine ⟨⟨(UpTo.loop env ms db).err, (UpTo.loop env ms db).db,
    [.begin, .lock] ++ (UpTo.loop env ms db).trace ++ [.unlock, .commit]⟩, ?_, rfl, rfl, rfl,
    ?_, ?_⟩
  · rw [UpByOne_eq_loop env ms db hcollect, lockScope_locked env db _ hbegin hlock]
    rfl
  · cases hn : Migrations.Next ms c with
    | error e =>
      rw [upLoop_next_err env ms db c e hv hn]
      simp [Event.isAction]
    | ok m =>
      rw [upLoop_next_ok env ms db c m hv hn]
      simp [Event.isAction]
  · intro hmax
    rw [upLoop_next_err env ms db c _ hv (Next_none_above ms c hmax)]
    simp [Event.isAction]

/-- C8, at a concrete input: `UpByOne` at version 3 over the units 1, 2, 3. -/
theorem UpByOne_single_iteration_witness :
    ∃ r, UpByOne (envOf idleServer units123) 3 = some r ∧
      r.err = some .ErrNoNextVersion ∧ r.trace.filter Event.isAction = [] := by
  obtain ⟨r, h1, _, _, _, _, h2⟩ :=
    UpByOne_single_iteration (envOf idleServer units123) units123 3 3 rfl rfl rfl rfl
  exact ⟨r, h1, h2 (by decide)⟩


/-- C1: on a collection sorted by strictly increasing version, from current
version `c`, with the transaction begun and the lock acquired, and with every
successful up action making its own version the current one, `Up` (which is
`UpTo` at `maxVersion`) returns once the fuel covers the collection, and the up
actions it executes are those of `upsInOrder` on the units of version above
`c`: these units in ascending order, cut off after the first whose up action
fails. The database and the error are those of that sequence, the error
`ErrNoNextVersion` being turned into success. -/
theorem Up_runs_pending_in_order {DB : Type} (env : Env DB) (ms : Migrations DB) (db : DB)
    (c : Int) (fuel : Nat)
    (hcollect : env.CollectMigrations env.minVersion env.maxVersion = .ok ms)
    (hsorted : ms.Pairwise (fun a b => a.Version < b.Version))
    (hbegin : env.begin = none) (hlock : env.lockErr = none)
    (hc : env.GetDBVersion db = .ok c)
    (hup : ∀ m ∈ ms, ∀ d, (m.Up d).1 = none → env.GetDBVersion (m.Up d).2 = .ok m.Version)
    (hfuel : ms.length + 1 ≤ fuel) :
    ∃ r, Up env fuel db = some r ∧
      r.trace.filter Event.isAction =
        (upsInOrder (ms.filter fun m => decide (c < m.Version)) db).trace ∧
      r.db = (upsInOrder (ms.filter fun m => decide (c < m.Version)) db).db ∧
      r.err =
        (match (upsInOrder (ms.filter fun m => decide (c < m.Version)) db).err with
          | none => none
          | some x => if x = .ErrNoNextVersion then none else some x) := by
  obtain ⟨done, pending, hms, hdone, hpending, hfilter⟩ := sorted_split_at c ms hsorted
  rw [hfilter]
  have hlen : pending.length + 1 ≤ fuel := by
    have : pending.length ≤ ms.length := by rw [hms]; simp
    omega
  obtain ⟨e, tr, hit, htr, he1, he2⟩ :=
    upIterate_pending env ms hsorted hup pending done c db fuel hms hdone hpending hc hlen
  refine ⟨⟨if e = .ErrNoNextVersion then none else some e, (upsInOrder pending db).db,
    [.begin, .lock] ++ tr ++ [.unlock, .commit]⟩, ?_, ?_, rfl, ?_⟩
  · unfold Up UpTo
    rw [hcollect]
    simp only []
    rw [lockScope_locked env db _ hbegin hlock, hit]
    rfl
  · simp only [List.filter_append]
    rw [htr]
    simp [Event.isAction]
  · cases herr : (upsInOrder pending db).err with
    | none => simp [he1 herr]
    | some x => rw [he2 x herr]

/-- C1, at a concrete input: `Up` over the units 1, 2, 3 on a fresh database
(current version 0) runs the three up actions in the order 1, 2, 3, returns
success and leaves 3 as the current version. -/
theorem Up_runs_pending_in_order_witness :
    ∃ r, Up (envOf idleServer units123) 4 0 = some r ∧
      r.trace.filter Event.isAction =
        [.up 1 "1_a.sql" none, .up 2 "2_b.sql" none, .up 3 "3_c.sql" none] ∧
      (envOf idleServer units123).GetDBVersion r.db = .ok 3 ∧ r.err = none := by
  obtain ⟨r, h1, h2, h3, h4⟩ :=
    Up_runs_pending_in_order (envOf idleServer units123) units123 0 0 4 rfl (by decide) rfl rfl
      rfl
      (by
        intro m hm d _
        simp only [units123, List.mem_cons, List.mem_singleton, List.not_mem_nil,
          or_false] at hm
        rcases hm with rfl | rfl | rfl <;> rfl)
      (by decide)
  refine ⟨r, h1, ?_, ?_, ?_⟩
  · rw [h2]; rfl
  · rw [h3]; rfl
  · rw [h4]; rfl


/-- C9, as the code has it: on a collection sorted by strictly increasing
version in which no unit has version 0, from a current version `c` that is the
version of a unit, with the transaction begun and the lock acquired, and with
every successful down action making the version of the unit before it (or 0)
the current one, `DownTo(t)` returns once the fuel covers the collection, and
the down actions it executes are those of `downsInOrder` on the units with
`t < version ≤ c`, highest version first: these units in descending order, cut
off after the first whose down action fails. No unit of version `≤ t` is
reverted. `DownTo` returns success when no down action fails, and otherwise the
error of the failing action (a sentinel being turned into success). -/
theorem DownTo_reverts_in_order {DB : Type} (env : Env DB) (ms : Migrations DB) (db : DB)
    (t c : Int) (fuel : Nat)
    (hcollect : env.CollectMigrations env.minVersion env.maxVersion = .ok ms)
    (hsorted : ms.Pairwise (fun a b => a.Version < b.Version))
    (hbase : ∀ m ∈ ms, m.Version ≠ 0)
    (hbegin : env.begin = none) (hlock : env.lockErr = none)
    (hc : env.GetDBVersion db = .ok c) (hpresent : ∃ m ∈ ms, m.Version = c)
    (hdown : ∀ pre m post, ms = pre ++ m :: post → ∀ d, (m.Down d).1 = none →
      env.GetDBVersion (m.Down d).2 = .ok (versionBefore pre))
    (hfuel : ms.length + 1 ≤ fuel) :
    ∃ r, DownTo env t fuel db = some r ∧
      r.trace.filter Event.isAction =
        (downsInOrder
          (ms.filter fun m => decide (t < m.Version ∧ m.Version ≤ c)).reverse db).trace ∧
      r.db =
        (downsInOrder
          (ms.filter fun m => decide (t < m.Version ∧ m.Version ≤ c)).reverse db).db ∧
      r.err =
        (match (downsInOrder
            (ms.filter fun m => decide (t < m.Version ∧ m.Version ≤ c)).reverse db).err with
          | none => none
          | some x => if x = .ErrNoNextVersion ∨ x = .ErrNoCurrentVersion then none else some x) ∧
      (∀ v s x, Event.down v s x ∈ r.trace → t < v ∧ v ≤ c) := by
  obtain ⟨m, hm, hmc⟩ := hpresent
  obtain ⟨l', post, hms'⟩ := List.append_of_mem hm
  have hms : ms = (l' ++ [m]) ++ post := by rw [hms']; simp
  have hsorted' : (l' ++ m :: post).Pairwise (fun a b => a.Version < b.Version) := by
    rw [← hms']; exact hsorted
  have hl : ∀ x ∈ l' ++ [m], x.Version ≤ c := by
    intro x hx
    rcases List.mem_append.mp hx with h | h
    · have := (List.pairwise_append.mp hsorted').2.2 x h m (List.mem_cons_self m post)
      omega
    · rw [List.mem_singleton.mp h]; omega
  have hpost : ∀ x ∈ post, c < x.Version := by
    intro x hx
    have h2 := (List.pairwise_append.mp hsorted').2.1
    have := (List.pairwise_cons.mp h2).1 x hx
    omega
  have hfilter : ms.filter (fun m => decide (t < m.Version ∧ m.Version ≤ c)) =
      (l' ++ [m]).filter (fun m => decide (t < m.Version)) := by
    rw [hms, List.filter_append]
    have h1 : post.filter (fun m => decide (t < m.Version ∧ m.Version ≤ c)) = [] := by
      rw [List.filter_eq_nil_iff]
      intro x hx
      have := hpost x hx
      simp only [decide_eq_true_eq, not_and]
      intro _
      omega
    have h2 : (l' ++ [m]).filter (fun m => decide (t < m.Version ∧ m.Version ≤ c)) =
        (l' ++ [m]).filter (fun m => decide (t < m.Version)) := by
      apply List.filter_congr
      intro x hx
      have := hl x hx
      simp [this]
    rw [h1, h2, List.append_nil]
  rw [hfilter]
  have hc' : env.GetDBVersion db = .ok (versionBefore (l' ++ [m])) := by
    rw [versionBefore_concat, hmc]; exact hc
  have hlen : (l' ++ [m]).length + 1 ≤ fuel := by
    have : (l' ++ [m]).length ≤ ms.length := by rw [hms]; simp
    omega
  obtain ⟨e, tr, hit, htr, he1, he2⟩ :=
    downIterate_applied env ms t hsorted hbase hdown (l' ++ [m]).length (l' ++ [m]) post db fuel
      rfl hms hc' hlen
  have htrace : ([Event.begin, Event.lock] ++ tr ++ [Event.unlock, Event.commit]).filter Event.isAction =
      (downsInOrder ((l' ++ [m]).filter fun m => decide (t < m.Version)).reverse db).trace := by
    simp only [List.filter_append]
    rw [htr]
    simp [Event.isAction]
  refine ⟨⟨if e = .ErrNoNextVersion ∨ e = .ErrNoCurrentVersion then none else some e,
    (downsInOrder ((l' ++ [m]).filter fun m => decide (t < m.Version)).reverse db).db,
    [.begin, .lock] ++ tr ++ [.unlock, .commit]⟩, ?_, htrace, rfl, ?_, ?_⟩
  · unfold DownTo
    rw [hcollect]
    simp only []
    rw [lockScope_locked env db _ hbegin hlock, hit]
    rfl
  · cases herr : (downsInOrder
        ((l' ++ [m]).filter fun m => decide (t < m.Version)).reverse db).err with
    | none =>
      have := he1 herr
      simp [this]
    | some x => rw [he2 x herr]
  · intro v s x hmem
    have hmem' : Event.down v s x ∈
        ([Event.begin, Event.lock] ++ tr ++ [Event.unlock, Event.commit]).filter Event.isAction := by
      rw [List.mem_filter]
      exact ⟨hmem, rfl⟩
    rw [htrace] at hmem'
    obtain ⟨u, hu, y, hy⟩ := downsInOrder_trace_mem _ db _ hmem'
    rw [List.mem_reverse, List.mem_filter] at hu
    have hv : v = u.Version := by
      injection hy
    have h1 : t < u.Version := by simpa using hu.2
    have h2 := hl u hu.1
    rw [hv]
    exact ⟨h1, h2⟩

/-- C9, at a concrete input: `DownTo(0)` from current version 2 over the units
1, 2, 3 reverts unit 2, then unit 1, returns success and leaves 0 as the
current version. -/
theorem DownTo_reverts_in_order_witness :
    ∃ r, DownTo (envOf idleServer units123) 0 4 2 = some r ∧
      r.trace.filter Event.isAction = [.down 2 "2_b.sql" none, .down 1 "1_a.sql" none] ∧
      (envOf idleServer units123).GetDBVersion r.db = .ok 0 ∧ r.err = none := by
  obtain ⟨r, h1, h2, h3, h4, _⟩ :=
    DownTo_reverts_in_order (envOf idleServer units123) units123 2 0 2 4 rfl (by decide)
      (by decide) rfl rfl rfl (by decide)
      (by
        intro pre m post hms d _
        have hcases : (pre = [] ∧ m = unit 1 0 "1_a.sql") ∨
            (pre = [unit 1 0 "1_a.sql"] ∧ m = unit 2 1 "2_b.sql") ∨
            (pre = [unit 1 0 "1_a.sql", unit 2 1 "2_b.sql"] ∧ m = unit 3 2 "3_c.sql") := by
          unfold units123 at hms
          match pre, hms with
          | [], h =>
            simp only [List.nil_append, List.cons.injEq] at h
            exact Or.inl ⟨rfl, h.1.symm⟩
          | [a], h =>
            simp only [List.cons_append, List.nil_append, List.cons.injEq] at h
            exact Or.inr (Or.inl ⟨by rw [h.1], h.2.1.symm⟩)
          | [a, b], h =>
            simp only [List.cons_append, List.nil_append, List.cons.injEq] at h
            exact Or.inr (Or.inr ⟨by rw [h.1, h.2.1], h.2.2.1.symm⟩)
          | a :: b :: c :: rest, h =>
            simp only [List.cons_append, List.cons.injEq] at h
            have := h.2.2.2
            cases rest <;> simp at this
        rcases hcases with ⟨rfl, rfl⟩ | ⟨rfl, rfl⟩ | ⟨rfl, rfl⟩ <;> rfl)
      (by decide)
  refine ⟨r, h1, ?_, ?_, ?_⟩
  · rw [h2]; rfl
  · rw [h3]; rfl
  · rw [h4]; rfl

/-- C9 as stated fails. First, over the units 1, 2 (broken), 3 from current
version 2, `DownTo(0)` attempts the down action of unit 2, which fails: it
returns that error and never reverts unit 1. Second, over the collection whose
only unit has version 0, `DownTo(-1)` from current version 0 never returns: the
version 0 that the down action leaves is again the version of that unit. -/
theorem DownTo_stops_at_failing_down :
    (∃ r, DownTo (envOf idleServer units1b3) 0 4 2 = some r ∧
      r.err = some (.other "syntax error") ∧
      r.trace = [.begin, .lock, .getDBVersion,
        .down 2 "2_b.sql" (some (.other "syntax error")), .unlock, .commit]) ∧
    ¬ ∃ fuel r, DownTo (envOf idleServer units0) (-1) fuel 0 = some r := by
  refine ⟨⟨_, rfl, rfl, rfl⟩, ?_⟩
  rintro ⟨fuel, r, h⟩
  have hc : (envOf idleServer units0).CollectMigrations (envOf idleServer units0).minVersion
      (envOf idleServer units0).maxVersion = .ok units0 := rfl
  unfold DownTo at h
  rw [hc] at h
  simp only [] at h
  rw [lockScope_locked (envOf idleServer units0) 0 _ rfl rfl,
    downIterate_units0_loops fuel] at h
  cases h


/-- C11: on a collection whose versions are pairwise different, when the
current version is that of the unit `u` of the collection, the lock is acquired,
and a successful up action of `u` makes its version the current one, `Redo`
returns, and: when the down action of `u` succeeds, the run is
`begin, lock, GetDBVersion, u.Down, u.Up, unlock, commit`, the up action running
on the database the down action left, both on `u` and inside the one lock scope,
and `Redo` returns what the up action returned; when the down action fails, the
up action is not run and that error is returned; and after a successful `Redo`
the current version is again the version of `u`. -/
theorem Redo_down_then_up {DB : Type} (env : Env DB) (ms : Migrations DB) (db : DB)
    (u : Migration DB) (hbegin : env.begin = none) (hlock : env.lockErr = none)
    (hv : env.GetDBVersion db = .ok u.Version)
    (hcollect : env.CollectMigrations env.minVersion env.maxVersion = .ok ms)
    (hu : u ∈ ms) (huniq : ms.Pairwise (fun a b => a.Version ≠ b.Version))
    (hup : ∀ d, (u.Up d).1 = none → env.GetDBVersion (u.Up d).2 = .ok u.Version) :
    ∃ r, Redo env db = some r ∧
      ((u.Down db).1 = none →
        r.trace = [.begin, .lock, .getDBVersion, .down u.Version u.Source none,
          .up u.Version u.Source (u.Up (u.Down db).2).1, .unlock, .commit] ∧
        r.err = (u.Up (u.Down db).2).1 ∧ r.db = (u.Up (u.Down db).2).2) ∧
      (∀ e, (u.Down db).1 = some e →
        r.trace = [.begin, .lock, .getDBVersion, .down u.Version u.Source (some e),
          .unlock, .commit] ∧
        r.err = some e ∧ r.db = (u.Down db).2) ∧
      (r.err = none → env.GetDBVersion r.db = .ok u.Version) := by
  have hcur := Current_of_mem_unique ms u hu huniq
  cases hd : u.Down db with
  | mk e1 db1 =>
    cases e1 with
    | some e =>
      refine ⟨⟨some e, db1,
        [.begin, .lock, .getDBVersion, .down u.Version u.Source (some e), .unlock, .commit]⟩,
        ?_, ?_, ?_, ?_⟩
      · unfold Redo
        rw [lockScope_locked env db _ hbegin hlock]
        simp only [hv, hcollect, hcur, hd]
        rfl
      · intro h; cases h
      · intro e' he'
        cases he'
        exact ⟨rfl, rfl, rfl⟩
      · intro h; cases h
    | none =>
      refine ⟨⟨(u.Up db1).1, (u.Up db1).2,
        [.begin, .lock, .getDBVersion, .down u.Version u.Source none,
          .up u.Version u.Source (u.Up db1).1, .unlock, .commit]⟩, ?_, ?_, ?_, ?_⟩
      · unfold Redo
        rw [lockScope_locked env db _ hbegin hlock]
        simp only [hv, hcollect, hcur, hd]
        rfl
      · intro _
        exact ⟨rfl, rfl, rfl⟩
      · intro e' he'; cases he'
      · intro h
        exact hup db1 h

/-- C11, at a concrete input: `Redo` at current version 2 over the units 1, 2,
3 runs the down action and then the up action of unit 2, returns success and
leaves 2 as the current version. -/
theorem Redo_down_then_up_witness :
    ∃ r, Redo (envOf idleServer units123) 2 = some r ∧
      r.trace = [.begin, .lock, .getDBVersion, .down 2 "2_b.sql" none,
        .up 2 "2_b.sql" none, .unlock, .commit] ∧
      r.err = none ∧ (envOf idleServer units123).GetDBVersion r.db = .ok 2 := by
  obtain ⟨r, h1, h2, _, h4⟩ :=
    Redo_down_then_up (envOf idleServer units123) units123 2 (unit 2 1 "2_b.sql") rfl rfl rfl
      rfl (by simp [units123]) (by decide) (fun _ _ => rfl)
  obtain ⟨h5, h6, _⟩ := h2 rfl
  exact ⟨r, h1, h5, h6, h4 h6⟩

end Goose
